import Mathlib

/-!
Verification of the spellbinder placement engine and its surrounding
segment, spacer, ownership and insert-at-slot logic.

The definitions below are a shallow embedding of the TypeScript source:
the placement engine is translated from the calculatePlacements module,
the segment and spacer operations from the segments store, the
ownership-key shifting from the collection store, and the insert-at-slot
handler from the plan editor view.  JavaScript objects keyed by integers
are modelled as association lists, the per-container next-free-slot map
as a function from container id to Nat, and the asynchronous card-lookup
collaborator as an explicit function from card id to an optional card
record.
-/

namespace Spellbinder

/-- Number.MAX_SAFE_INTEGER, used by the source as the capacity of an
unbounded box container. -/
def maxSafeInteger : Nat := 2 ^ 53 - 1

/-- The discriminated container kind: a bounded page binder carrying
pageCount and slotsPerPage, or an unbounded box. -/
inductive BinderKind where
  | pageBinder (pageCount slotsPerPage : Nat)
  | box
deriving DecidableEq

/-- A container.  The source Binder record also carries a display name and
cover-image data, none of which the placement engine reads; only the id
and the capacity-determining kind are modelled. -/
structure Binder where
  id : String
  kind : BinderKind
deriving DecidableEq

/-- Capacity of a container: pageCount * slotsPerPage for a bounded
binder, Number.MAX_SAFE_INTEGER for a box (source: binderCapacities in
calculatePlacements). -/
def capacity (b : Binder) : Nat :=
  match b.kind with
  | .pageBinder pageCount slotsPerPage => pageCount * slotsPerPage
  | .box => maxSafeInteger

/-- A card record returned by the card-lookup collaborator.  The engine
reads only the id field (placements store the record, and the insert
handler reads card.id), so only that field is modelled. -/
structure ScryfallCard where
  id : String
deriving DecidableEq

/-- The sparse spacer map of a segment: a JavaScript object keyed by card
position, modelled as an association list from position to count. -/
abbrev SpacerMap : Type := List (Nat × Nat)

/-- The raw map entry at a position, if present (object property read):
the value of the first entry carrying the key. -/
def lookupSpacer : SpacerMap → Nat → Option Nat
  | [], _ => none
  | e :: rest, i => if e.1 == i then some e.2 else lookupSpacer rest i

/-- Source expression: spacersBefore at index, defaulting to 0 with the
nullish-coalescing operator. -/
def getSpacer (m : SpacerMap) (i : Nat) : Nat :=
  (lookupSpacer m i).getD 0

/-- JavaScript object property assignment: replace the entry if the key
exists, otherwise append it. -/
def setSpacer (m : SpacerMap) (i v : Nat) : SpacerMap :=
  if m.any (fun e => e.1 == i) then
    m.map (fun e => if e.1 == i then (i, v) else e)
  else
    m ++ [(i, v)]

/-- JavaScript delete of an object property. -/
def delSpacer (m : SpacerMap) (i : Nat) : SpacerMap :=
  m.filter (fun e => !(e.1 == i))

/-- A segment: ordered card-id sequence, leading offset, optional target
container id and sparse spacer map (source Segment interface). -/
structure Segment where
  id : String
  name : String
  scryfallSetCode : String
  cardIds : List String
  offset : Nat
  targetBinderId : Option String
  spacersBefore : SpacerMap
deriving DecidableEq

/-- A computed placement (source CardPlacement interface). -/
structure CardPlacement where
  card : ScryfallCard
  segmentId : String
  cardIndexInSegment : Nat
  binderId : String
  binderIndex : Nat
  pageNumber : Nat
  slotOnPage : Nat
deriving DecidableEq

/-- An overflow record of the placement result. -/
structure OverflowRecord where
  segmentId : String
  segmentName : String
  overflowCount : Nat
deriving DecidableEq

/-- The result of calculatePlacements. -/
structure PlacementResult where
  placements : List CardPlacement
  overflow : List OverflowRecord
  totalCards : Nat
  totalCapacity : Nat
deriving DecidableEq

/-- Pointwise update of the next-free-slot map (Map.set in the source;
Map.get with a nullish default 0 is modelled by starting from the
constantly-zero function, matching the initialisation loop that sets
every container id to 0). -/
def setSlot (f : String → Nat) (k : String) (v : Nat) : String → Nat :=
  fun x => if x = k then v else f x

/-- State threaded through one run of the engine while a segment is being
processed: the shared next-free-slot counters, the placements emitted so
far (across all segments), and the running per-segment overflow counter. -/
structure SegState where
  nextSlot : String → Nat
  placements : List CardPlacement
  segOverflow : Nat

/-- Source helper findBinderWithSpace: scan containers from a start index
for the first one whose next free slot is below its capacity, returning
the container, its index and its next free slot.  The recursion carries
the remaining suffix of the container list together with the absolute
index of its head; binderCapacities[i] equals capacity of the container
at index i. -/
def findBinderWithSpace (ns : String → Nat) : List Binder → Nat → Option (Binder × Nat × Nat)
  | [], _ => none
  | b :: rest, i =>
      if ns b.id < capacity b then some (b, i, ns b.id)
      else findBinderWithSpace ns rest (i + 1)

/-- The inline auto-fill scan of the per-card loop: find the first
container, from a start index, with room for the spacers plus the card
itself (nextSlot + spacerCount < capacity). -/
def autoFillScan (ns : String → Nat) (sc : Nat) : List Binder → Nat → Option (Binder × Nat)
  | [], _ => none
  | b :: rest, i =>
      if ns b.id + sc < capacity b then some (b, i)
      else autoFillScan ns sc rest (i + 1)

/-- Destination choice for one card (source lines: try target binder
first if specified, else fall back to the auto-fill scan starting just
after the target index, or from index 0 when there is no target). -/
def chooseBinder (binders : List Binder) (ns : String → Nat)
    (target? : Option (Binder × Nat)) (sc : Nat) : Option (Binder × Nat) :=
  match target? with
  | some (tb, ti) =>
      if ns tb.id + sc < (((binders.get? ti).map capacity).getD 0) then some (tb, ti)
      else autoFillScan ns sc (binders.drop (ti + 1)) (ti + 1)
  | none => autoFillScan ns sc binders 0

/-- Page and slot-on-page derived from a linear slot (first half of the
source placeCard): page arithmetic for a bounded binder, linear
positioning on a constant page 1 for a box. -/
def pageSlotOf (binder : Binder) (slot : Nat) : Nat × Nat :=
  match binder.kind with
  | .box => (1, slot + 1)
  | .pageBinder _ slotsPerPage => (slot / slotsPerPage + 1, slot % slotsPerPage + 1)

/-- Push one placement and advance the counter of the destination
container (second half of the source placeCard). -/
def placeCard (card : ScryfallCard) (segmentId : String) (cardIndexInSegment : Nat)
    (binder : Binder) (binderIndex slot : Nat) (st : SegState) : SegState :=
  let pageSlot : Nat × Nat := pageSlotOf binder slot
  { nextSlot := setSlot st.nextSlot binder.id (slot + 1)
    placements := st.placements ++
      [{ card := card, segmentId := segmentId, cardIndexInSegment := cardIndexInSegment,
         binderId := binder.id, binderIndex := binderIndex,
         pageNumber := pageSlot.1, slotOnPage := pageSlot.2 }]
    segOverflow := st.segOverflow }

/-- One iteration of the per-card loop of calculatePlacements: skip the
position if the card id does not resolve, otherwise choose a destination
container; if none qualifies count the position as segment overflow,
otherwise consume the spacers on the destination container and place the
card at its (now current) next free slot. -/
def processCard (cardMap : String → Option ScryfallCard) (binders : List Binder)
    (target? : Option (Binder × Nat)) (seg : Segment)
    (cardIndex : Nat) (cardId : String) (st : SegState) : SegState :=
  match cardMap cardId with
  | none => st
  | some card =>
      let sc := getSpacer seg.spacersBefore cardIndex
      match chooseBinder binders st.nextSlot target? sc with
      | none => { st with segOverflow := st.segOverflow + 1 }
      | some (pb, pi) =>
          let ns1 := if sc > 0 then setSlot st.nextSlot pb.id (st.nextSlot pb.id + sc)
                     else st.nextSlot
          let slot := ns1 pb.id
          placeCard card seg.id cardIndex pb pi slot { st with nextSlot := ns1 }

/-- The indexed per-card loop over a segment card sequence. -/
def processCards (cardMap : String → Option ScryfallCard) (binders : List Binder)
    (target? : Option (Binder × Nat)) (seg : Segment) :
    Nat → List String → SegState → SegState
  | _, [], st => st
  | i, cardId :: rest, st =>
      processCards cardMap binders target? seg (i + 1) rest
        (processCard cardMap binders target? seg i cardId st)

/-- Target container resolution: findIndex by id over the container list,
keeping both the container and its index when found. -/
def findBinderIdx : List Binder → String → Nat → Option (Binder × Nat)
  | [], _, _ => none
  | b :: rest, tid, i => if b.id == tid then some (b, i) else findBinderIdx rest tid (i + 1)

/-- Resolve the target container of a segment, if its targetBinderId is
set and present in the container list. -/
def resolveTarget (binders : List Binder) (seg : Segment) : Option (Binder × Nat) :=
  match seg.targetBinderId with
  | none => none
  | some tid => findBinderIdx binders tid 0

/-- Apply the segment offset: advance the counter of the target container
when resolved, otherwise of the first container with any space left
(search from index 0); no-op when the offset is zero or no container has
space. -/
def applyOffset (binders : List Binder) (seg : Segment)
    (target? : Option (Binder × Nat)) (ns : String → Nat) : String → Nat :=
  if seg.offset > 0 then
    match target? with
    | some (tb, _) => setSlot ns tb.id (ns tb.id + seg.offset)
    | none =>
        match findBinderWithSpace ns binders 0 with
        | some (b, _, slot) => setSlot ns b.id (slot + seg.offset)
        | none => ns
  else ns

/-- Engine state between segments: emitted placements, overflow records
and the shared next-free-slot counters. -/
structure EngineState where
  placements : List CardPlacement
  overflow : List OverflowRecord
  nextSlot : String → Nat

/-- Process one segment: resolve its target, apply its offset, run the
per-card loop, and append one overflow record when the per-segment
overflow counter is positive. -/
def processSegment (cardMap : String → Option ScryfallCard) (binders : List Binder)
    (st : EngineState) (segment : Segment) : EngineState :=
  let target? := resolveTarget binders segment
  let ns0 := applyOffset binders segment target? st.nextSlot
  let inner := processCards cardMap binders target? segment 0 segment.cardIds
    { nextSlot := ns0, placements := st.placements, segOverflow := 0 }
  { placements := inner.placements
    overflow :=
      if inner.segOverflow > 0 then
        st.overflow ++ [{ segmentId := segment.id, segmentName := segment.name,
                          overflowCount := inner.segOverflow }]
      else st.overflow
    nextSlot := inner.nextSlot }

/-- The initial engine state: no placements, no overflow, and every
next-free-slot counter at 0 (the source initialises the counter of every
container id to 0 and reads missing ids with a 0 default). -/
def initialEngineState : EngineState :=
  { placements := [], overflow := [], nextSlot := fun _ => 0 }

/-- The placement engine (source calculatePlacements).  The asynchronous
card lookup getCachedCards is modelled as the explicit cardMap argument;
everything after that await is synchronous and pure. -/
def calculatePlacements (cardMap : String → Option ScryfallCard)
    (segments : List Segment) (binders : List Binder) : PlacementResult :=
  let allCardIds := segments.flatMap (fun s => s.cardIds)
  let finalState := segments.foldl (processSegment cardMap binders) initialEngineState
  { placements := finalState.placements
    overflow := finalState.overflow
    totalCards := allCardIds.length
    totalCapacity := (binders.map capacity).sum }

/-- Sum of the overflow counts of a list of overflow records. -/
def overflowSum (l : List OverflowRecord) : Nat :=
  (l.map (fun o => o.overflowCount)).sum

/-- Number of positions of a card-id list whose id the card map
resolves. -/
def resolvedCount (cardMap : String → Option ScryfallCard) (ids : List String) : Nat :=
  (ids.filter (fun id => (cardMap id).isSome)).length

/-- The spacer-map re-keying performed by insertCardInSegment when a card
is inserted at a given index: entries below the index are kept, entries
at or above it are shifted up by one, and then the count that the card at
the insertion index used to carry is reduced by one (it stays with that
card, now shifted), the entry being deleted when it was exactly 1. -/
def insertSpacerShift (m : SpacerMap) (index : Nat) : SpacerMap :=
  let existingSpacers := getSpacer m index
  let shifted := m.map (fun e => if e.1 < index then e else (e.1 + 1, e.2))
  if existingSpacers > 0 then
    if existingSpacers > 1 then setSpacer shifted (index + 1) (existingSpacers - 1)
    else delSpacer shifted (index + 1)
  else shifted

/-- Source insertCardInSegment, on the segment it updates: insert the new
card id before the first occurrence of insertBeforeCardId when that id is
present, re-keying the spacer map with insertSpacerShift; append to the
end otherwise.  The sibling call into the collection store
(shiftIndicesForInsert) is modelled separately below. -/
def insertCardInSegment (seg : Segment) (cardId : String)
    (insertBeforeCardId : Option String) : Segment :=
  match insertBeforeCardId with
  | some c =>
      match seg.cardIds.findIdx? (fun x => x == c) with
      | some index =>
          { seg with
            cardIds := seg.cardIds.take index ++ cardId :: seg.cardIds.drop index
            spacersBefore := insertSpacerShift seg.spacersBefore index }
      | none => { seg with cardIds := seg.cardIds ++ [cardId] }
  | none => { seg with cardIds := seg.cardIds ++ [cardId] }

/-- Source addSpacerBefore, on the segment it updates: bounds-guarded
increment of the spacer count recorded before the card at cardIndex. -/
def addSpacerBefore (segment : Segment) (cardIndex : Nat) : Segment :=
  if cardIndex < segment.cardIds.length then
    let current := getSpacer segment.spacersBefore cardIndex
    { segment with spacersBefore := setSpacer segment.spacersBefore cardIndex (current + 1) }
  else segment

/-- Source removeSpacerBefore, on the segment it updates: bounds-guarded
decrement; a count that would reach 0 has its entry deleted instead of
being retained as 0; no-op when the count is already 0 or absent. -/
def removeSpacerBefore (segment : Segment) (cardIndex : Nat) : Segment :=
  if cardIndex < segment.cardIds.length then
    let current := getSpacer segment.spacersBefore cardIndex
    if current = 0 then segment
    else if current > 1 then
      { segment with spacersBefore := setSpacer segment.spacersBefore cardIndex (current - 1) }
    else
      { segment with spacersBefore := delSpacer segment.spacersBefore cardIndex }
  else segment

/-!
Ownership-key model (collection store).  JavaScript strings are modelled
as lists of characters so that the prefix test, slice and template
concatenation of the source become list operations.
-/

/-- A JavaScript string, as a list of characters. -/
abbrev JStr : Type := List Char

/-- The character of a single decimal digit. -/
def digitChar (d : Nat) : Char :=
  match d with
  | 0 => '0' | 1 => '1' | 2 => '2' | 3 => '3' | 4 => '4'
  | 5 => '5' | 6 => '6' | 7 => '7' | 8 => '8' | _ => '9'

/-- Fuelled decimal printer; the fuel bounds the number of divisions by
ten and is always sufficient when it exceeds the number printed. -/
def natCharsAux : Nat → Nat → JStr
  | 0, _ => []
  | fuel + 1, n =>
      if n < 10 then [digitChar n]
      else natCharsAux fuel (n / 10) ++ [digitChar (n % 10)]

/-- Decimal digits of a natural number (the characters produced by a
JavaScript template literal interpolating a non-negative integer). -/
def natChars (n : Nat) : JStr :=
  natCharsAux (n + 1) n

/-- An ownership key: segmentId, a colon, and the decimal position. -/
def mkKey (sid : JStr) (pos : Nat) : JStr :=
  sid ++ ':' :: natChars pos

/-- JavaScript String.startsWith. -/
def startsWithJ : JStr → JStr → Bool
  | _, [] => true
  | [], _ :: _ => false
  | c :: cs, p :: ps => p == c && startsWithJ cs ps

/-- Value of a run of decimal digits (most significant first). -/
def digitsToNat (ds : JStr) : Nat :=
  ds.foldl (fun a c => 10 * a + (c.toNat - 48)) 0

/-- JavaScript parseInt with radix 10 on the inputs that occur here: the
longest leading run of decimal digits is parsed, and the NaN result on an
input with no leading digit is modelled as none.  (The sign and
whitespace handling of parseInt is irrelevant to ownership keys.) -/
def parseNat (cs : JStr) : Option Nat :=
  let ds := cs.takeWhile (fun c => c.isDigit)
  if ds.isEmpty then none else some (digitsToNat ds)

/-- The per-key body of the shiftIndicesForInsert loops: a key of this
segment whose parsed position is at least the insert index is re-keyed to
position + 1; every other key is kept as is (a NaN parse compares false
and keeps the key). -/
def shiftKeyForInsert (segmentId : JStr) (insertIndex : Nat) (key : JStr) : JStr :=
  if startsWithJ key (segmentId ++ [':']) then
    match parseNat (key.drop (segmentId ++ [':']).length) with
    | some idx => if insertIndex ≤ idx then mkKey segmentId (idx + 1) else key
    | none => key
  else key

/-- Source shiftIndicesForInsert: rebuild both the owned and the skipped
key sets by applying the per-key shift to every element. -/
def shiftIndicesForInsert (owned skipped : List JStr) (segmentId : JStr)
    (insertIndex : Nat) : List JStr × List JStr :=
  (owned.map (shiftKeyForInsert segmentId insertIndex),
   skipped.map (shiftKeyForInsert segmentId insertIndex))

/-- Source toggleOwned / toggleSkipped: set-membership flip on a key
set. -/
def toggleKey (s : List JStr) (k : JStr) : List JStr :=
  if k ∈ s then s.filter (fun x => x ≠ k) else s ++ [k]

/-- A string that contains no colon, as every segment id (a UUID)
does. -/
def colonFree (s : JStr) : Prop := ':' ∉ s

instance (s : JStr) : Decidable (colonFree s) := by
  unfold colonFree
  infer_instance

/-!
Insert-at-slot handler (plan editor view).
-/

/-- The decision computed by handleInsertCard: the owning segment id and
the card id to insert before (none to append at the end). -/
structure InsertDecision where
  segmentId : String
  insertBeforeCardId : Option String
deriving DecidableEq

/-- Linear slot index of a placement in the viewed container, computed by
the handler from page number and slot-on-page with the viewed container
slotsPerPage. -/
def handlerSlotIndex (slotsPerPage : Nat) (p : CardPlacement) : Nat :=
  (p.pageNumber - 1) * slotsPerPage + (p.slotOnPage - 1)

/-- Insert an indexed placement into a list sorted by slot index, after
every element with a smaller or equal index. -/
def insertBySlot (x : CardPlacement × Nat) : List (CardPlacement × Nat) → List (CardPlacement × Nat)
  | [] => [x]
  | y :: ys => if y.2 ≤ x.2 then y :: insertBySlot x ys else x :: y :: ys

/-- Stable sort by slot index (the source Array.sort with the numeric
comparator on slot indices), as a left-fold insertion sort. -/
def sortBySlot (l : List (CardPlacement × Nat)) : List (CardPlacement × Nat) :=
  l.foldl (fun acc x => insertBySlot x acc) []

/-- The placements of the viewed container paired with their linear slot
indices, sorted by slot index. -/
def sortedBinderPlacements (placements : List CardPlacement) (binderId : String)
    (slotsPerPage : Nat) : List (CardPlacement × Nat) :=
  sortBySlot ((placements.filter (fun p => p.binderId == binderId)).map
    (fun p => (p, handlerSlotIndex slotsPerPage p)))

/-- The placement just before the target slot: last element of the sorted
list with a strictly smaller slot index (reverse-then-find in the
source). -/
def findPlacementBefore (placements : List CardPlacement) (binderId : String)
    (slotsPerPage targetSlotIndex : Nat) : Option (CardPlacement × Nat) :=
  (sortedBinderPlacements placements binderId slotsPerPage).reverse.find?
    (fun x => x.2 < targetSlotIndex)

/-- The placement just after the target slot: first element of the sorted
list with a strictly larger slot index. -/
def findPlacementAfter (placements : List CardPlacement) (binderId : String)
    (slotsPerPage targetSlotIndex : Nat) : Option (CardPlacement × Nat) :=
  (sortedBinderPlacements placements binderId slotsPerPage).find?
    (fun x => x.2 > targetSlotIndex)

/-- The clicked linear slot index computed by the handler from page
number and slot-on-page. -/
def targetSlotIndexOf (slotsPerPage pageNumber slotOnPage : Nat) : Nat :=
  (pageNumber - 1) * slotsPerPage + (slotOnPage - 1)

/-- Source handleInsertCard, up to the insertCardInSegment call it
schedules: determine the owning segment (the before placement when
present, else the after placement) and the card id to insert before (the
after card when it exists and shares the before placement segment, or
when there is no before placement); none means append, a none result
means no insertion is possible.  The viewed container slotsPerPage is
passed explicitly; a box container, whose slotsPerPage is undefined and
makes every slot-index comparison false in the source, is outside this
model. -/
def handleInsertCard (placements : List CardPlacement) (binderId : String)
    (slotsPerPage pageNumber slotOnPage : Nat) : Option InsertDecision :=
  match findPlacementBefore placements binderId slotsPerPage
      (targetSlotIndexOf slotsPerPage pageNumber slotOnPage) with
  | some b =>
      match findPlacementAfter placements binderId slotsPerPage
          (targetSlotIndexOf slotsPerPage pageNumber slotOnPage) with
      | some a =>
          if a.1.segmentId == b.1.segmentId then
            some { segmentId := b.1.segmentId, insertBeforeCardId := some a.1.card.id }
          else
            some { segmentId := b.1.segmentId, insertBeforeCardId := none }
      | none => some { segmentId := b.1.segmentId, insertBeforeCardId := none }
  | none =>
      match findPlacementAfter placements binderId slotsPerPage
          (targetSlotIndexOf slotsPerPage pageNumber slotOnPage) with
      | some a => some { segmentId := a.1.segmentId, insertBeforeCardId := some a.1.card.id }
      | none => none

/-!
Derived counting and indexing functions used by the statements below, and
concrete inputs for the scenario theorems, the witnesses and the
counterexamples.
-/

/-- Number of placements assigned to the container at a given position of
the container order. -/
def countIdx (ps : List CardPlacement) (i : Nat) : Nat :=
  (ps.filter (fun p => p.binderIndex == i)).length

/-- The linear slot index a placement occupies inside a given container,
recovered from its page number and slot-on-page exactly as placeCard
produced them. -/
def linIdx (b : Binder) (p : CardPlacement) : Nat :=
  match b.kind with
  | .box => p.slotOnPage - 1
  | .pageBinder _ slotsPerPage => (p.pageNumber - 1) * slotsPerPage + (p.slotOnPage - 1)

/-- Invariant tying per-container placement counts to the next-free-slot
counters and the capacities: the container at every position of the
order has received no more placements than its counter has advanced and
no more than its capacity. -/
def CapInv (binders : List Binder) (ns : String → Nat) (ps : List CardPlacement) : Prop :=
  ∀ i (h : i < binders.length),
    countIdx ps i ≤ ns ((binders.get ⟨i, h⟩).id) ∧
    countIdx ps i ≤ capacity (binders.get ⟨i, h⟩)

/-- Invariant for slot distinctness: the linear indices of the
placements carrying the id of the container at each position of the
order are strictly increasing in emission order and all lie below the
next-free-slot counter of that id. -/
def SlotInv (binders : List Binder) (ns : String → Nat) (ps : List CardPlacement) : Prop :=
  ∀ i (h : i < binders.length),
    ((ps.filter (fun p => p.binderId == (binders.get ⟨i, h⟩).id)).map
      (linIdx (binders.get ⟨i, h⟩))).Pairwise (· < ·) ∧
    ∀ p ∈ ps, p.binderId = (binders.get ⟨i, h⟩).id →
      linIdx (binders.get ⟨i, h⟩) p < ns ((binders.get ⟨i, h⟩).id)

/-- A card map that resolves every id (a fully warmed cache). -/
def cardMapAll : String → Option ScryfallCard := fun s => some { id := s }

/-- One bounded container with 2 pages of 9 slots (capacity 18). -/
def scenarioBinder : Binder := { id := "X", kind := .pageBinder 2 9 }

/-- One segment of 20 resolvable card ids with offset 3, no target and no
spacers. -/
def scenarioSegment : Segment :=
  { id := "s1", name := "seg", scryfallSetCode := "xx",
    cardIds := List.replicate 20 "c", offset := 3,
    targetBinderId := none, spacersBefore := [] }

/-- A one-card segment used to exercise an unresolvable card id. -/
def missSegment : Segment :=
  { id := "s", name := "n", scryfallSetCode := "x",
    cardIds := ["a"], offset := 0, targetBinderId := none, spacersBefore := [] }

/-- Two containers sharing one id but with different page geometry. -/
def dupBinderA : Binder := { id := "X", kind := .pageBinder 2 9 }

/-- Second container of the duplicated-id pair, 2 pages of 12 slots. -/
def dupBinderB : Binder := { id := "X", kind := .pageBinder 2 12 }

/-- A 19-card segment that spills from the first duplicated-id container
into the second. -/
def dupSegment : Segment :=
  { id := "s1", name := "seg", scryfallSetCode := "xx",
    cardIds := List.replicate 19 "c", offset := 0,
    targetBinderId := none, spacersBefore := [] }

/-- A container of one page of 9 slots for the insert-at-slot scenario. -/
def sevenBinder : Binder := { id := "X", kind := .pageBinder 1 9 }

/-- A segment whose card id A occurs both at position 0 and at position
2, with one spacer recorded before position 2. -/
def sevenSegment : Segment :=
  { id := "s", name := "seg", scryfallSetCode := "xx",
    cardIds := ["A", "B", "A"], offset := 0,
    targetBinderId := none, spacersBefore := [(2, 1)] }

/-- A three-card segment with exactly one spacer recorded before position
2, for the spacer-consumption scenario. -/
def spacerSegment : Segment :=
  { id := "s", name := "n", scryfallSetCode := "x",
    cardIds := ["a", "b", "c"], offset := 0,
    targetBinderId := none, spacersBefore := [(2, 1)] }

/-- Lookup distributes over append, searching the left entries first. -/
theorem lookupSpacer_append (m₁ m₂ : SpacerMap) (q : Nat) :
    lookupSpacer (m₁ ++ m₂) q =
      match lookupSpacer m₁ q with
      | some v => some v
      | none => lookupSpacer m₂ q := by
  induction m₁ with
  | nil => simp [lookupSpacer]
  | cons e rest ih =>
      simp only [List.cons_append, lookupSpacer]
      by_cases he : e.1 = q
      · simp [he]
      · simp [he, ih]

/-- Presence of a key in the entry list coincides with a successful
lookup. -/
theorem any_key_eq_isSome (m : SpacerMap) (i : Nat) :
    (m.any (fun e => e.1 == i)) = (lookupSpacer m i).isSome := by
  induction m with
  | nil => simp [lookupSpacer]
  | cons e rest ih =>
      simp only [List.any_cons, lookupSpacer]
      by_cases he : e.1 = i
      · simp [he]
      · simp [he, ih]

/-- Replacing a key in place only affects the looked-up value of that
key, and only when the key is present. -/
theorem lookupSpacer_map_replace (m : SpacerMap) (i v q : Nat) :
    lookupSpacer (m.map (fun e => if e.1 == i then (i, v) else e)) q =
      if q = i then (lookupSpacer m i).map (fun _ => v) else lookupSpacer m q := by
  induction m with
  | nil => simp [lookupSpacer]
  | cons e rest ih =>
      by_cases he : e.1 = i <;> by_cases hq : q = i <;>
        simp_all [lookupSpacer]
      have hiq : ¬ i = q := fun h => hq h.symm
      rw [if_neg hiq, if_neg hiq]

/-- Property assignment on the sparse map: the assigned key reads back
the assigned value and every other key is untouched. -/
theorem lookupSpacer_setSpacer (m : SpacerMap) (i v q : Nat) :
    lookupSpacer (setSpacer m i v) q = if q = i then some v else lookupSpacer m q := by
  unfold setSpacer
  by_cases hmem : (m.any (fun e => e.1 == i)) = true
  · rw [if_pos hmem, lookupSpacer_map_replace]
    rw [any_key_eq_isSome] at hmem
    by_cases hq : q = i
    · cases hv : lookupSpacer m i with
      | none => rw [hv] at hmem; simp at hmem
      | some w => simp [hq, hv]
    · simp [hq]
  · rw [if_neg hmem, lookupSpacer_append]
    rw [any_key_eq_isSome] at hmem
    by_cases hq : q = i
    · subst hq
      cases hv : lookupSpacer m q with
      | none => simp [lookupSpacer]
      | some w => rw [hv] at hmem; simp at hmem
    · cases hv : lookupSpacer m q with
      | none =>
          have hiq : ¬ i = q := fun h => hq h.symm
          simp only [lookupSpacer, beq_iff_eq]
          rw [if_neg hiq, if_neg hq]
      | some w => rw [if_neg hq]

/-- Property deletion on the sparse map: the deleted key reads back
nothing and every other key is untouched. -/
theorem lookupSpacer_delSpacer (m : SpacerMap) (i q : Nat) :
    lookupSpacer (delSpacer m i) q = if q = i then none else lookupSpacer m q := by
  unfold delSpacer
  induction m with
  | nil => simp [lookupSpacer]
  | cons e rest ih =>
      by_cases he : e.1 = i <;> by_cases hq : q = i <;> by_cases heq : e.1 = q <;>
        simp_all [lookupSpacer, List.filter_cons]

/-- Shifting every entry key at or above a pivot up by one relocates the
looked-up values accordingly and leaves the pivot key unmapped. -/
theorem lookupSpacer_shiftMap (m : SpacerMap) (p q : Nat) :
    lookupSpacer (m.map (fun e => if e.1 < p then e else (e.1 + 1, e.2))) q =
      if q < p then lookupSpacer m q
      else if q = p then none
      else lookupSpacer m (q - 1) := by
  induction m with
  | nil => simp [lookupSpacer]
  | cons e rest ih =>
      simp only [List.map_cons]
      by_cases he : e.1 < p
      · rw [if_pos he]
        simp only [lookupSpacer, beq_iff_eq] at ih ⊢
        by_cases heq : e.1 = q
        · have hqp : q < p := heq ▸ he
          rw [if_pos heq, if_pos hqp, if_pos heq]
        · rw [if_neg heq, ih]
          by_cases h1 : q < p
          · rw [if_pos h1, if_pos h1, if_neg heq]
          · rw [if_neg h1, if_neg h1]
            by_cases h2 : q = p
            · rw [if_pos h2, if_pos h2]
            · rw [if_neg h2, if_neg h2]
              have hne : ¬ e.1 = q - 1 := by omega
              rw [if_neg hne]
      · rw [if_neg he]
        simp only [lookupSpacer, beq_iff_eq] at ih ⊢
        by_cases heq : e.1 + 1 = q
        · have h1 : ¬ q < p := by omega
          have h2 : ¬ q = p := by omega
          rw [if_pos heq, if_neg h1, if_neg h2]
          have hpred : e.1 = q - 1 := by omega
          rw [if_pos hpred]
        · rw [if_neg heq, ih]
          by_cases h1 : q < p
          · have hne : ¬ e.1 = q := by omega
            rw [if_pos h1, if_pos h1, if_neg hne]
          · rw [if_neg h1, if_neg h1]
            by_cases h2 : q = p
            · rw [if_pos h2, if_pos h2]
            · rw [if_neg h2, if_neg h2]
              have hne : ¬ e.1 = q - 1 := by omega
              rw [if_neg hne]

/-- The defaulted read of the sparse map after a property assignment. -/
theorem getSpacer_setSpacer (m : SpacerMap) (i v q : Nat) :
    getSpacer (setSpacer m i v) q = if q = i then v else getSpacer m q := by
  unfold getSpacer
  rw [lookupSpacer_setSpacer]
  by_cases hq : q = i
  · rw [if_pos hq, if_pos hq]
    rfl
  · rw [if_neg hq, if_neg hq]

/-- The defaulted read of the sparse map after a property deletion. -/
theorem getSpacer_delSpacer (m : SpacerMap) (i q : Nat) :
    getSpacer (delSpacer m i) q = if q = i then 0 else getSpacer m q := by
  unfold getSpacer
  rw [lookupSpacer_delSpacer]
  by_cases hq : q = i
  · rw [if_pos hq, if_pos hq]
    rfl
  · rw [if_neg hq, if_neg hq]

/-- C8: adding a spacer at a position and then removing one at the same
position restores the spacer count recorded before that position to its
prior value, and when the prior count was zero, so that the count
returns to zero, the map entry is deleted rather than retained as 0. -/
theorem addRemoveSpacer_roundtrip (seg : Segment) (p : Nat) :
    getSpacer ((removeSpacerBefore (addSpacerBefore seg p) p).spacersBefore) p =
      getSpacer seg.spacersBefore p ∧
    (p < seg.cardIds.length → getSpacer seg.spacersBefore p = 0 →
      lookupSpacer ((removeSpacerBefore (addSpacerBefore seg p) p).spacersBefore) p = none) := by
  by_cases hp : p < seg.cardIds.length
  · have hadd : addSpacerBefore seg p =
        { seg with spacersBefore :=
            setSpacer seg.spacersBefore p (getSpacer seg.spacersBefore p + 1) } := by
      unfold addSpacerBefore
      rw [if_pos hp]
    rw [hadd]
    have hcur : getSpacer (setSpacer seg.spacersBefore p (getSpacer seg.spacersBefore p + 1)) p =
        getSpacer seg.spacersBefore p + 1 := by
      rw [getSpacer_setSpacer, if_pos rfl]
    unfold removeSpacerBefore
    dsimp only
    rw [if_pos hp, hcur]
    by_cases hz : getSpacer seg.spacersBefore p = 0
    · rw [hz]
      rw [if_neg (by omega), if_neg (by omega)]
      dsimp only
      constructor
      · rw [getSpacer_delSpacer, if_pos rfl]
      · intro _ _
        rw [lookupSpacer_delSpacer, if_pos rfl]
    · rw [if_neg (by omega), if_pos (by omega)]
      dsimp only
      constructor
      · rw [getSpacer_setSpacer, if_pos rfl]
        omega
      · intro _ h0
        exact absurd h0 hz
  · have hadd : addSpacerBefore seg p = seg := by
      unfold addSpacerBefore
      rw [if_neg hp]
    rw [hadd]
    have hrem : removeSpacerBefore seg p = seg := by
      unfold removeSpacerBefore
      rw [if_neg hp]
    rw [hrem]
    exact ⟨rfl, fun h => absurd h hp⟩

/-- Witness for the spacer round trip at a concrete segment and
position. -/
theorem addRemoveSpacer_roundtrip_witness :
    0 < spacerSegment.cardIds.length ∧
    getSpacer spacerSegment.spacersBefore 0 = 0 ∧
    lookupSpacer ((removeSpacerBefore (addSpacerBefore spacerSegment 0) 0).spacersBefore) 0 =
      none :=
  ⟨by decide, by decide,
    (addRemoveSpacer_roundtrip spacerSegment 0).2 (by decide) (by decide)⟩

/-- C6: inserting a new card at an in-range position p whose current card
has N spacers recorded before it, with N at least 1, shifts every
spacer-map entry at positions at or above p up by one, except that the
count carried to position p + 1 becomes N - 1, the entry being removed
entirely when N was exactly 1; the card sequence receives the new card at
position p. -/
theorem insertCard_spacer_consumption (seg : Segment) (c newId : String) (p : Nat)
    (hfind : seg.cardIds.findIdx? (fun x => x == c) = some p)
    (hN : 1 ≤ getSpacer seg.spacersBefore p) :
    (insertCardInSegment seg newId (some c)).cardIds =
      seg.cardIds.take p ++ newId :: seg.cardIds.drop p ∧
    ∀ q, lookupSpacer ((insertCardInSegment seg newId (some c)).spacersBefore) q =
      if q < p then lookupSpacer seg.spacersBefore q
      else if q = p then none
      else if q = p + 1 then
        (if getSpacer seg.spacersBefore p = 1 then none
         else some (getSpacer seg.spacersBefore p - 1))
      else lookupSpacer seg.spacersBefore (q - 1) := by
  have hres : insertCardInSegment seg newId (some c) =
      { seg with
        cardIds := seg.cardIds.take p ++ newId :: seg.cardIds.drop p,
        spacersBefore := insertSpacerShift seg.spacersBefore p } := by
    unfold insertCardInSegment
    dsimp only
    rw [hfind]
  rw [hres]
  refine ⟨rfl, fun q => ?_⟩
  dsimp only
  unfold insertSpacerShift
  rw [if_pos (by omega : getSpacer seg.spacersBefore p > 0)]
  by_cases h2 : getSpacer seg.spacersBefore p > 1
  · rw [if_pos h2, lookupSpacer_setSpacer]
    by_cases hq1 : q = p + 1
    · rw [if_pos hq1, if_neg (by omega), if_neg (by omega), if_pos hq1,
        if_neg (by omega)]
    · rw [if_neg hq1, lookupSpacer_shiftMap]
      by_cases hlt : q < p
      · rw [if_pos hlt, if_pos hlt]
      · rw [if_neg hlt, if_neg hlt]
        by_cases hqp : q = p
        · rw [if_pos hqp, if_pos hqp]
        · rw [if_neg hqp, if_neg hqp, if_neg hq1]
  · have hN1 : getSpacer seg.spacersBefore p = 1 := by omega
    rw [if_neg h2, lookupSpacer_delSpacer]
    by_cases hq1 : q = p + 1
    · rw [if_pos hq1, if_neg (by omega), if_neg (by omega), if_pos hq1, if_pos hN1]
    · rw [if_neg hq1, lookupSpacer_shiftMap]
      by_cases hlt : q < p
      · rw [if_pos hlt, if_pos hlt]
      · rw [if_neg hlt, if_neg hlt]
        by_cases hqp : q = p
        · rw [if_pos hqp, if_pos hqp]
        · rw [if_neg hqp, if_neg hqp, if_neg hq1]

/-- Witness for the spacer-consuming insertion: inserting at position 2
of the segment whose spacer map is one spacer before position 2 yields a
spacer map with no entry at 3. -/
theorem insertCard_spacer_consumption_witness :
    spacerSegment.cardIds.findIdx? (fun x => x == "c") = some 2 ∧
    1 ≤ getSpacer spacerSegment.spacersBefore 2 ∧
    lookupSpacer ((insertCardInSegment spacerSegment "N" (some "c")).spacersBefore) 3 = none := by
  refine ⟨by decide, by decide, ?_⟩
  have h := (insertCard_spacer_consumption spacerSegment "c" "N" 2 (by decide) (by decide)).2 3
  rw [h]
  decide

/-- Overflow sums add up over an appended record. -/
theorem overflowSum_append (l : List OverflowRecord) (r : OverflowRecord) :
    overflowSum (l ++ [r]) = overflowSum l + r.overflowCount := by
  simp [overflowSum]

/-- One card-loop iteration adds exactly one to placements plus segment
overflow when the card id resolves, and nothing otherwise. -/
theorem processCard_count (cardMap : String → Option ScryfallCard) (binders : List Binder)
    (target? : Option (Binder × Nat)) (seg : Segment) (i : Nat) (c : String) (st : SegState) :
    (processCard cardMap binders target? seg i c st).placements.length +
      (processCard cardMap binders target? seg i c st).segOverflow =
    st.placements.length + st.segOverflow + (if (cardMap c).isSome then 1 else 0) := by
  unfold processCard
  cases hm : cardMap c with
  | none => simp
  | some card =>
      dsimp only
      cases hc : chooseBinder binders st.nextSlot target? (getSpacer seg.spacersBefore i) with
      | none =>
          simp only [Option.isSome_some, if_true]
          omega
      | some bi =>
          obtain ⟨pb, pi⟩ := bi
          unfold placeCard
          dsimp only
          rw [List.length_append]
          simp only [Option.isSome_some, if_true, List.length_cons, List.length_nil]
          omega

/-- The card loop adds exactly the number of resolvable positions to
placements plus segment overflow. -/
theorem processCards_count (cardMap : String → Option ScryfallCard) (binders : List Binder)
    (target? : Option (Binder × Nat)) (seg : Segment) :
    ∀ (cards : List String) (i : Nat) (st : SegState),
    (processCards cardMap binders target? seg i cards st).placements.length +
      (processCards cardMap binders target? seg i cards st).segOverflow =
    st.placements.length + st.segOverflow + resolvedCount cardMap cards := by
  intro cards
  induction cards with
  | nil => intro i st; simp [processCards, resolvedCount]
  | cons c rest ih =>
      intro i st
      have hstep := processCard_count cardMap binders target? seg i c st
      unfold processCards
      rw [ih (i + 1) (processCard cardMap binders target? seg i c st)]
      unfold resolvedCount at *
      rw [List.filter_cons]
      cases hm : (cardMap c).isSome with
      | true =>
          rw [hm] at hstep
          simp at hstep
          simp [hm]
          omega
      | false =>
          rw [hm] at hstep
          simp at hstep
          simp [hm]
          omega

/-- Processing one segment adds its resolvable-position count to
placements plus summed overflow. -/
theorem processSegment_count (cardMap : String → Option ScryfallCard) (binders : List Binder)
    (st : EngineState) (seg : Segment) :
    (processSegment cardMap binders st seg).placements.length +
      overflowSum (processSegment cardMap binders st seg).overflow =
    st.placements.length + overflowSum st.overflow + resolvedCount cardMap seg.cardIds := by
  unfold processSegment
  dsimp only
  have h := processCards_count cardMap binders (resolveTarget binders seg) seg seg.cardIds 0
    { nextSlot := applyOffset binders seg (resolveTarget binders seg) st.nextSlot
      placements := st.placements, segOverflow := 0 }
  dsimp only at h
  by_cases ho :
      (processCards cardMap binders (resolveTarget binders seg) seg 0 seg.cardIds
        { nextSlot := applyOffset binders seg (resolveTarget binders seg) st.nextSlot
          placements := st.placements, segOverflow := 0 }).segOverflow > 0
  · rw [if_pos ho, overflowSum_append]
    dsimp only
    omega
  · rw [if_neg ho]
    omega

/-- The segment fold adds the total resolvable-position count. -/
theorem foldl_processSegment_count (cardMap : String → Option ScryfallCard)
    (binders : List Binder) :
    ∀ (segments : List Segment) (st : EngineState),
    (segments.foldl (processSegment cardMap binders) st).placements.length +
      overflowSum (segments.foldl (processSegment cardMap binders) st).overflow =
    st.placements.length + overflowSum st.overflow +
      (segments.map (fun s => resolvedCount cardMap s.cardIds)).sum := by
  intro segments
  induction segments with
  | nil => intro st; simp
  | cons seg rest ih =>
      intro st
      rw [List.foldl_cons, ih (processSegment cardMap binders st seg), List.map_cons,
        List.sum_cons, processSegment_count]
      omega

/-- C1 (amended): totalCards is the sum over segments of the length of
the card-id sequence, and the number of placements plus the summed
overflow counts equals the number of card positions whose id the card map
resolves; a position whose id does not resolve is neither placed nor
counted as overflow, so the placed plus overflow total equals totalCards
exactly when every card id resolves. -/
theorem placement_conservation (cardMap : String → Option ScryfallCard)
    (segments : List Segment) (binders : List Binder) :
    (calculatePlacements cardMap segments binders).totalCards =
      (segments.map (fun s => s.cardIds.length)).sum ∧
    (calculatePlacements cardMap segments binders).placements.length +
      overflowSum (calculatePlacements cardMap segments binders).overflow =
      (segments.map (fun s => resolvedCount cardMap s.cardIds)).sum ∧
    ((∀ id ∈ segments.flatMap (fun s => s.cardIds), ((cardMap id).isSome)) →
      (calculatePlacements cardMap segments binders).placements.length +
        overflowSum (calculatePlacements cardMap segments binders).overflow =
        (calculatePlacements cardMap segments binders).totalCards) := by
  have h1 : (calculatePlacements cardMap segments binders).totalCards =
      (segments.map (fun s => s.cardIds.length)).sum := by
    unfold calculatePlacements
    dsimp only
    rw [List.length_flatMap]
    rfl
  have h2 : (calculatePlacements cardMap segments binders).placements.length +
      overflowSum (calculatePlacements cardMap segments binders).overflow =
      (segments.map (fun s => resolvedCount cardMap s.cardIds)).sum := by
    unfold calculatePlacements
    dsimp only
    rw [foldl_processSegment_count]
    simp [initialEngineState, overflowSum]
  refine ⟨h1, h2, fun hall => ?_⟩
  rw [h1, h2]
  congr 1
  apply List.map_congr_left
  intro s hs
  unfold resolvedCount
  have hs' : ∀ id ∈ s.cardIds, ((cardMap id).isSome) := by
    intro id hid
    exact hall id (List.mem_flatMap.mpr ⟨s, hs, hid⟩)
  rw [List.filter_eq_self.mpr (fun a ha => hs' a ha)]

/-- Witness for the conservation theorem at a fully resolvable input. -/
theorem placement_conservation_witness :
    (∀ id ∈ [scenarioSegment].flatMap (fun s => s.cardIds), ((cardMapAll id).isSome)) ∧
    (calculatePlacements cardMapAll [scenarioSegment] [scenarioBinder]).placements.length +
      overflowSum (calculatePlacements cardMapAll [scenarioSegment] [scenarioBinder]).overflow =
      (calculatePlacements cardMapAll [scenarioSegment] [scenarioBinder]).totalCards := by
  have h : ∀ id ∈ [scenarioSegment].flatMap (fun s => s.cardIds), ((cardMapAll id).isSome) := by
    decide
  exact ⟨h, (placement_conservation cardMapAll [scenarioSegment] [scenarioBinder]).2.2 h⟩

/-- C1 counterexample: with a card map that resolves nothing, a one-card
segment is neither placed nor counted as overflow, so placements plus
summed overflow is 0 while totalCards is 1 and the stated equality
fails. -/
theorem placement_conservation_cex :
    (calculatePlacements (fun _ => none) [missSegment] [scenarioBinder]).placements.length +
      overflowSum (calculatePlacements (fun _ => none) [missSegment] [scenarioBinder]).overflow ≠
    (calculatePlacements (fun _ => none) [missSegment] [scenarioBinder]).totalCards := by
  decide

/-- Characterization of the auto-fill scan over a binder suffix carried
with the absolute index of its head: a hit is the first qualifying
position. -/
theorem autoFillScan_spec (ns : String → Nat) (sc : Nat) :
    ∀ (l : List Binder) (i0 : Nat) (b : Binder) (i : Nat),
    autoFillScan ns sc l i0 = some (b, i) →
    i0 ≤ i ∧ l.get? (i - i0) = some b ∧ ns b.id + sc < capacity b ∧
    ∀ k, k < i - i0 → ∀ bk, l.get? k = some bk → capacity bk ≤ ns bk.id + sc := by
  intro l
  induction l with
  | nil =>
      intro i0 b i h
      simp [autoFillScan] at h
  | cons hd tl ih =>
      intro i0 b i h
      unfold autoFillScan at h
      by_cases hroom : ns hd.id + sc < capacity hd
      · rw [if_pos hroom] at h
        have hbi : hd = b ∧ i0 = i := by
          have := Option.some.inj h
          exact ⟨congrArg Prod.fst this, congrArg Prod.snd this⟩
        obtain ⟨rfl, rfl⟩ := hbi
        refine ⟨Nat.le_refl _, ?_, hroom, ?_⟩
        · simp
        · intro k hk
          omega
      · rw [if_neg hroom] at h
        obtain ⟨h1, h2, h3, h4⟩ := ih (i0 + 1) b i h
        refine ⟨by omega, ?_, h3, ?_⟩
        · have hidx : i - i0 = (i - (i0 + 1)) + 1 := by omega
          rw [hidx]
          simpa using h2
        · intro k hk bk hbk
          cases k with
          | zero =>
              simp at hbk
              subst hbk
              omega
          | succ k' =>
              refine h4 k' (by omega) bk ?_
              simpa using hbk

/-- The auto-fill scan stated against the full container list: a hit is
the first container at or after the start index with room for the
spacers plus the card. -/
theorem autoFillScan_drop_spec (binders : List Binder) (ns : String → Nat) (sc : Nat)
    (start : Nat) (b : Binder) (i : Nat)
    (h : autoFillScan ns sc (binders.drop start) start = some (b, i)) :
    start ≤ i ∧ binders.get? i = some b ∧ ns b.id + sc < capacity b ∧
    ∀ j, start ≤ j → j < i → ∀ bj, binders.get? j = some bj →
      capacity bj ≤ ns bj.id + sc := by
  obtain ⟨h1, h2, h3, h4⟩ := autoFillScan_spec ns sc (binders.drop start) start b i h
  have hget : binders.get? i = some b := by
    have := List.get?_drop binders start (i - start)
    rw [h2] at this
    have harith : start + (i - start) = i := by omega
    rw [harith] at this
    exact this.symm
  refine ⟨h1, hget, h3, ?_⟩
  intro j hj1 hj2 bj hbj
  refine h4 (j - start) (by omega) bj ?_
  rw [List.get?_drop]
  have harith : start + (j - start) = j := by omega
  rw [harith]
  exact hbj

/-- A destination chosen with a resolved target never lies before the
target in the container order. -/
theorem chooseBinder_target_lb (binders : List Binder) (ns : String → Nat) (sc : Nat)
    (tb : Binder) (ti : Nat) (b : Binder) (i : Nat)
    (h : chooseBinder binders ns (some (tb, ti)) sc = some (b, i)) : ti ≤ i := by
  unfold chooseBinder at h
  dsimp only at h
  by_cases hroom : ns tb.id + sc < ((binders.get? ti).map capacity).getD 0
  · rw [if_pos hroom] at h
    have := congrArg Prod.snd (Option.some.inj h)
    omega
  · rw [if_neg hroom] at h
    have := (autoFillScan_drop_spec binders ns sc (ti + 1) b i h).1
    omega

/-- A chosen destination is a real container of the list and has room
for the spacers plus the card, provided the target pair, when present,
is the container at its recorded index. -/
theorem chooseBinder_sound (binders : List Binder) (ns : String → Nat)
    (target? : Option (Binder × Nat)) (sc : Nat) (b : Binder) (i : Nat)
    (htgt : ∀ tb ti, target? = some (tb, ti) → binders.get? ti = some tb)
    (h : chooseBinder binders ns target? sc = some (b, i)) :
    binders.get? i = some b ∧ ns b.id + sc < capacity b := by
  cases target? with
  | none =>
      unfold chooseBinder at h
      dsimp only at h
      rw [← List.drop_zero (l := binders)] at h
      have := autoFillScan_drop_spec binders ns sc 0 b i h
      exact ⟨this.2.1, this.2.2.1⟩
  | some p =>
      obtain ⟨tb, ti⟩ := p
      have hget : binders.get? ti = some tb := htgt tb ti rfl
      unfold chooseBinder at h
      dsimp only at h
      rw [hget] at h
      simp only [Option.map_some', Option.getD_some] at h
      by_cases hroom : ns tb.id + sc < capacity tb
      · rw [if_pos hroom] at h
        have hb : tb = b := congrArg Prod.fst (Option.some.inj h)
        have hi : ti = i := congrArg Prod.snd (Option.some.inj h)
        subst hb
        subst hi
        exact ⟨hget, hroom⟩
      · rw [if_neg hroom] at h
        have := autoFillScan_drop_spec binders ns sc (ti + 1) b i h
        exact ⟨this.2.1, this.2.2.1⟩

/-- The card loop only appends placements, and every appended placement
has a container position validated by the destination choice. -/
theorem processCards_emitted (cardMap : String → Option ScryfallCard) (binders : List Binder)
    (target? : Option (Binder × Nat)) (seg : Segment) (Q : Nat → Prop)
    (hQ : ∀ (ns : String → Nat) (sc : Nat) (b : Binder) (i : Nat),
      chooseBinder binders ns target? sc = some (b, i) → Q i) :
    ∀ (cards : List String) (i0 : Nat) (st : SegState),
    ∃ emitted,
      (processCards cardMap binders target? seg i0 cards st).placements =
        st.placements ++ emitted ∧
      ∀ p ∈ emitted, Q p.binderIndex := by
  intro cards
  induction cards with
  | nil =>
      intro i0 st
      exact ⟨[], by simp [processCards], by simp⟩
  | cons c rest ih =>
      intro i0 st
      unfold processCards
      obtain ⟨new1, hnew1, hQ1⟩ := ih (i0 + 1) (processCard cardMap binders target? seg i0 c st)
      have hstep : ∃ new0,
          (processCard cardMap binders target? seg i0 c st).placements =
            st.placements ++ new0 ∧ ∀ p ∈ new0, Q p.binderIndex := by
        unfold processCard
        cases hm : cardMap c with
        | none => exact ⟨[], by simp, by simp⟩
        | some card =>
            dsimp only
            cases hc : chooseBinder binders st.nextSlot target?
                (getSpacer seg.spacersBefore i0) with
            | none => exact ⟨[], by simp, by simp⟩
            | some bi =>
                obtain ⟨pb, pi⟩ := bi
                unfold placeCard
                dsimp only
                refine ⟨_, rfl, ?_⟩
                intro p hp
                simp at hp
                subst hp
                exact hQ _ _ _ _ hc
      obtain ⟨new0, hnew0, hQ0⟩ := hstep
      refine ⟨new0 ++ new1, ?_, ?_⟩
      · rw [hnew1, hnew0, List.append_assoc]
      · intro p hp
        rcases List.mem_append.mp hp with h | h
        · exact hQ0 p h
        · exact hQ1 p h

/-- C2: the destination of a card is the resolved target container
whenever it has at least spacerCount plus one free slots from its next
free index; otherwise it is the first container, scanning from just
after the target index or from the start of the order without a
target, with that much room; and a container strictly before a resolved
target never receives a placement of that segment. -/
theorem destination_choice (binders : List Binder) (ns : String → Nat) (sc : Nat) :
    (∀ tb ti, binders.get? ti = some tb →
      (ns tb.id + sc < capacity tb →
        chooseBinder binders ns (some (tb, ti)) sc = some (tb, ti)) ∧
      (capacity tb ≤ ns tb.id + sc →
        chooseBinder binders ns (some (tb, ti)) sc =
          autoFillScan ns sc (binders.drop (ti + 1)) (ti + 1)) ∧
      (∀ b i, chooseBinder binders ns (some (tb, ti)) sc = some (b, i) → ti ≤ i)) ∧
    chooseBinder binders ns none sc = autoFillScan ns sc binders 0 ∧
    (∀ start b i, autoFillScan ns sc (binders.drop start) start = some (b, i) →
      start ≤ i ∧ binders.get? i = some b ∧ ns b.id + sc < capacity b ∧
      ∀ j, start ≤ j → j < i → ∀ bj, binders.get? j = some bj →
        capacity bj ≤ ns bj.id + sc) ∧
    (∀ (cardMap : String → Option ScryfallCard) (seg : Segment) (st : EngineState)
        (tb : Binder) (ti : Nat), resolveTarget binders seg = some (tb, ti) →
      ∃ emitted,
        (processSegment cardMap binders st seg).placements = st.placements ++ emitted ∧
        ∀ p ∈ emitted, ti ≤ p.binderIndex) := by
  refine ⟨?_, ?_, ?_, ?_⟩
  · intro tb ti hget
    refine ⟨?_, ?_, fun b i h => chooseBinder_target_lb binders ns sc tb ti b i h⟩
    · intro hroom
      unfold chooseBinder
      dsimp only
      rw [hget]
      simp only [Option.map_some', Option.getD_some]
      rw [if_pos hroom]
    · intro hfull
      unfold chooseBinder
      dsimp only
      rw [hget]
      simp only [Option.map_some', Option.getD_some]
      rw [if_neg (by omega)]
  · rfl
  · intro start b i h
    exact autoFillScan_drop_spec binders ns sc start b i h
  · intro cardMap seg st tb ti hres
    unfold processSegment
    rw [hres]
    dsimp only
    obtain ⟨emitted, hem, hall⟩ :=
      processCards_emitted cardMap binders (some (tb, ti)) seg (fun i => ti ≤ i)
        (fun ns' sc' b i h => chooseBinder_target_lb binders ns' sc' tb ti b i h)
        seg.cardIds 0
        { nextSlot := applyOffset binders seg (some (tb, ti)) st.nextSlot
          placements := st.placements, segOverflow := 0 }
    exact ⟨emitted, hem, hall⟩

/-- Witness for the destination choice: a target with room receives the
card. -/
theorem destination_choice_witness :
    (fun _ => (0 : Nat)) scenarioBinder.id + 0 < capacity scenarioBinder ∧
    chooseBinder [scenarioBinder] (fun _ => 0) (some (scenarioBinder, 0)) 0 =
      some (scenarioBinder, 0) := by
  have h := ((destination_choice [scenarioBinder] (fun _ => 0) 0).1 scenarioBinder 0 rfl).1
  exact ⟨by decide, h (by decide)⟩

/-- C4: for a fixed card-resolution map and fixed segment and container
lists, two invocations of the placement function yield identical results,
placements and overflow lists included; the engine is a pure function of
its arguments with no hidden state, and every per-container
next-free-slot counter of the initial state of a call is 0. -/
theorem calculatePlacements_deterministic
    (cardMap : String → Option ScryfallCard) (segments : List Segment)
    (binders : List Binder) :
    calculatePlacements cardMap segments binders =
      calculatePlacements cardMap segments binders ∧
    (calculatePlacements cardMap segments binders).placements =
      (calculatePlacements cardMap segments binders).placements ∧
    (calculatePlacements cardMap segments binders).overflow =
      (calculatePlacements cardMap segments binders).overflow ∧
    (∀ id, initialEngineState.nextSlot id = 0) :=
  ⟨rfl, rfl, rfl, fun _ => rfl⟩

/-- C5: with one bounded 2-by-9 container and one segment of 20
resolvable card ids at offset 3 with no target and no spacers, the engine
places the first card at page 1 slot 4 (linear index 3), emits exactly 15
placements, and reports one overflow record counting 5. -/
theorem scenario_offset_three :
    (calculatePlacements cardMapAll [scenarioSegment] [scenarioBinder]).placements.length = 15 ∧
    (calculatePlacements cardMapAll [scenarioSegment] [scenarioBinder]).overflow =
      [{ segmentId := "s1", segmentName := "seg", overflowCount := 5 }] ∧
    ((calculatePlacements cardMapAll [scenarioSegment] [scenarioBinder]).placements.head?).map
      (fun p => (p.pageNumber, p.slotOnPage)) = some (1, 4) := by
  set_option maxRecDepth 4000 in decide

/-- Appending a placement adds one to the count of its container
position and nothing elsewhere. -/
theorem countIdx_append (ps : List CardPlacement) (p : CardPlacement) (i : Nat) :
    countIdx (ps ++ [p]) i = countIdx ps i + (if p.binderIndex = i then 1 else 0) := by
  unfold countIdx
  rw [List.filter_append, List.length_append]
  congr 1
  by_cases h : p.binderIndex = i
  · simp [h]
  · simp [h]

/-- The offset helper reports the next free slot of the container it
returns. -/
theorem findBinderWithSpace_slot (ns : String → Nat) :
    ∀ (l : List Binder) (i0 : Nat) (b : Binder) (i slot : Nat),
    findBinderWithSpace ns l i0 = some (b, i, slot) → slot = ns b.id := by
  intro l
  induction l with
  | nil =>
      intro i0 b i slot h
      simp [findBinderWithSpace] at h
  | cons hd tl ih =>
      intro i0 b i slot h
      unfold findBinderWithSpace at h
      by_cases hroom : ns hd.id < capacity hd
      · rw [if_pos hroom] at h
        have hinj := Option.some.inj h
        have hb : hd = b := congrArg Prod.fst hinj
        have hs : ns hd.id = slot := congrArg (fun x => x.2.2) hinj
        rw [← hb]
        exact hs.symm
      · rw [if_neg hroom] at h
        exact ih _ _ _ _ h

/-- Applying a segment offset never decreases any next-free-slot
counter. -/
theorem applyOffset_mono (binders : List Binder) (seg : Segment)
    (target? : Option (Binder × Nat)) (ns : String → Nat) :
    ∀ id, ns id ≤ applyOffset binders seg target? ns id := by
  intro id
  unfold applyOffset
  by_cases ho : seg.offset > 0
  · rw [if_pos ho]
    cases target? with
    | some p =>
        obtain ⟨tb, ti⟩ := p
        dsimp only
        unfold setSlot
        by_cases hid : id = tb.id
        · rw [if_pos hid]
          subst hid
          omega
        · rw [if_neg hid]
    | none =>
        dsimp only
        cases hf : findBinderWithSpace ns binders 0 with
        | none => exact Nat.le_refl _
        | some r =>
            obtain ⟨b, i, slot⟩ := r
            have hslot : slot = ns b.id := findBinderWithSpace_slot ns binders 0 b i slot hf
            dsimp only
            unfold setSlot
            by_cases hid : id = b.id
            · rw [if_pos hid]
              subst hid
              omega
            · rw [if_neg hid]
  · rw [if_neg ho]

/-- The target lookup returns the container stored at the index it
reports. -/
theorem findBinderIdx_spec :
    ∀ (l : List Binder) (tid : String) (i0 : Nat) (b : Binder) (i : Nat),
    findBinderIdx l tid i0 = some (b, i) → i0 ≤ i ∧ l.get? (i - i0) = some b := by
  intro l
  induction l with
  | nil =>
      intro tid i0 b i h
      simp [findBinderIdx] at h
  | cons hd tl ih =>
      intro tid i0 b i h
      unfold findBinderIdx at h
      by_cases hid : hd.id == tid
      · rw [if_pos hid] at h
        have hinj := Option.some.inj h
        have hb : hd = b := congrArg Prod.fst hinj
        have hi : i0 = i := congrArg Prod.snd hinj
        subst hb
        subst hi
        simp
      · rw [if_neg hid] at h
        obtain ⟨h1, h2⟩ := ih tid (i0 + 1) b i h
        refine ⟨by omega, ?_⟩
        have hidx : i - i0 = (i - (i0 + 1)) + 1 := by omega
        rw [hidx]
        simpa using h2

/-- A resolved target is the container at its recorded index of the
container order. -/
theorem resolveTarget_sound (binders : List Binder) (seg : Segment) (tb : Binder) (ti : Nat)
    (h : resolveTarget binders seg = some (tb, ti)) : binders.get? ti = some tb := by
  unfold resolveTarget at h
  cases htid : seg.targetBinderId with
  | none => rw [htid] at h; exact absurd h (by simp)
  | some tid =>
      rw [htid] at h
      have := (findBinderIdx_spec binders tid 0 tb ti h).2
      simpa using this

/-- Explicit form of a successful per-card iteration: the spacers and
the card advance the destination counter by spacerCount plus one, and
exactly one placement at linear slot nextSlot plus spacerCount is
appended. -/
theorem processCard_place_eq (cardMap : String → Option ScryfallCard) (binders : List Binder)
    (target? : Option (Binder × Nat)) (seg : Segment) (i0 : Nat) (c : String) (st : SegState)
    (card : ScryfallCard) (pb : Binder) (pi : Nat)
    (hm : cardMap c = some card)
    (hc : chooseBinder binders st.nextSlot target? (getSpacer seg.spacersBefore i0) =
      some (pb, pi)) :
    processCard cardMap binders target? seg i0 c st =
      { nextSlot := setSlot st.nextSlot pb.id
          (st.nextSlot pb.id + getSpacer seg.spacersBefore i0 + 1)
        placements := st.placements ++
          [{ card := card, segmentId := seg.id, cardIndexInSegment := i0,
             binderId := pb.id, binderIndex := pi,
             pageNumber :=
               (pageSlotOf pb (st.nextSlot pb.id + getSpacer seg.spacersBefore i0)).1,
             slotOnPage :=
               (pageSlotOf pb (st.nextSlot pb.id + getSpacer seg.spacersBefore i0)).2 }]
        segOverflow := st.segOverflow } := by
  unfold processCard
  rw [hm]
  dsimp only
  rw [hc]
  unfold placeCard
  dsimp only
  by_cases hsc : getSpacer seg.spacersBefore i0 > 0
  · rw [if_pos hsc]
    have hslot : setSlot st.nextSlot pb.id
        (st.nextSlot pb.id + getSpacer seg.spacersBefore i0) pb.id =
        st.nextSlot pb.id + getSpacer seg.spacersBefore i0 := by
      unfold setSlot
      rw [if_pos rfl]
    rw [hslot]
    have hns : setSlot (setSlot st.nextSlot pb.id
        (st.nextSlot pb.id + getSpacer seg.spacersBefore i0)) pb.id
        (st.nextSlot pb.id + getSpacer seg.spacersBefore i0 + 1) =
        setSlot st.nextSlot pb.id
          (st.nextSlot pb.id + getSpacer seg.spacersBefore i0 + 1) := by
      funext x
      unfold setSlot
      by_cases hx : x = pb.id
      · rw [if_pos hx, if_pos hx]
      · rw [if_neg hx, if_neg hx, if_neg hx]
    rw [hns]
  · rw [if_neg hsc]
    have hz : getSpacer seg.spacersBefore i0 = 0 := by omega
    simp only [hz, Nat.add_zero]

/-- A successful per-card iteration preserves the capacity invariant. -/
theorem processCard_capInv (cardMap : String → Option ScryfallCard) (binders : List Binder)
    (target? : Option (Binder × Nat)) (seg : Segment) (i0 : Nat) (c : String) (st : SegState)
    (htgt : ∀ tb ti, target? = some (tb, ti) → binders.get? ti = some tb)
    (h : CapInv binders st.nextSlot st.placements) :
    CapInv binders (processCard cardMap binders target? seg i0 c st).nextSlot
      (processCard cardMap binders target? seg i0 c st).placements := by
  cases hm : cardMap c with
  | none =>
      unfold processCard
      rw [hm]
      exact h
  | some card =>
      cases hc : chooseBinder binders st.nextSlot target? (getSpacer seg.spacersBefore i0) with
      | none =>
          unfold processCard
          rw [hm]
          dsimp only
          rw [hc]
          exact h
      | some bi =>
          obtain ⟨pb, pi⟩ := bi
          obtain ⟨hget, hroom⟩ :=
            chooseBinder_sound binders st.nextSlot target? _ pb pi htgt hc
          rw [processCard_place_eq cardMap binders target? seg i0 c st card pb pi hm hc]
          intro j hj
          dsimp only
          rw [countIdx_append]
          dsimp only
          obtain ⟨hcnt, hcap⟩ := h j hj
          by_cases hji : pi = j
          · subst hji
            have hbj : binders.get ⟨pi, hj⟩ = pb := by
              have := List.get?_eq_get hj
              rw [hget] at this
              exact (Option.some.inj this).symm
            rw [if_pos rfl, hbj]
            constructor
            · unfold setSlot
              rw [if_pos rfl]
              rw [hbj] at hcnt
              omega
            · rw [hbj] at hcnt
              omega
          · rw [if_neg hji]
            refine ⟨?_, hcap⟩
            unfold setSlot
            by_cases hid : (binders.get ⟨j, hj⟩).id = pb.id
            · rw [if_pos hid]
              rw [hid] at hcnt
              omega
            · rw [if_neg hid]
              exact hcnt

/-- The card loop preserves the capacity invariant. -/
theorem processCards_capInv (cardMap : String → Option ScryfallCard) (binders : List Binder)
    (target? : Option (Binder × Nat)) (seg : Segment)
    (htgt : ∀ tb ti, target? = some (tb, ti) → binders.get? ti = some tb) :
    ∀ (cards : List String) (i0 : Nat) (st : SegState),
    CapInv binders st.nextSlot st.placements →
    CapInv binders (processCards cardMap binders target? seg i0 cards st).nextSlot
      (processCards cardMap binders target? seg i0 cards st).placements := by
  intro cards
  induction cards with
  | nil =>
      intro i0 st h
      exact h
  | cons c rest ih =>
      intro i0 st h
      unfold processCards
      exact ih (i0 + 1) _ (processCard_capInv cardMap binders target? seg i0 c st htgt h)

/-- Processing a segment preserves the capacity invariant. -/
theorem processSegment_capInv (cardMap : String → Option ScryfallCard) (binders : List Binder)
    (st : EngineState) (seg : Segment)
    (h : CapInv binders st.nextSlot st.placements) :
    CapInv binders (processSegment cardMap binders st seg).nextSlot
      (processSegment cardMap binders st seg).placements := by
  unfold processSegment
  dsimp only
  have htgt : ∀ tb ti, resolveTarget binders seg = some (tb, ti) →
      binders.get? ti = some tb := by
    intro tb ti hres
    exact resolveTarget_sound binders seg tb ti hres
  have hmono : ∀ id, st.nextSlot id ≤
      applyOffset binders seg (resolveTarget binders seg) st.nextSlot id :=
    applyOffset_mono binders seg (resolveTarget binders seg) st.nextSlot
  have h0 : CapInv binders
      (applyOffset binders seg (resolveTarget binders seg) st.nextSlot) st.placements := by
    intro i hi
    exact ⟨Nat.le_trans (h i hi).1 (hmono _), (h i hi).2⟩
  exact processCards_capInv cardMap binders (resolveTarget binders seg) seg htgt
    seg.cardIds 0
    { nextSlot := applyOffset binders seg (resolveTarget binders seg) st.nextSlot
      placements := st.placements, segOverflow := 0 } h0

/-- C3: in every placement result, the number of placements assigned to
the container at each position of the container order never exceeds that
container capacity (pageCount times slotsPerPage for a bounded binder,
the MAX_SAFE_INTEGER sentinel for a box). -/
theorem capacity_bound (cardMap : String → Option ScryfallCard) (segments : List Segment)
    (binders : List Binder) (i : Nat) (h : i < binders.length) :
    countIdx (calculatePlacements cardMap segments binders).placements i ≤
      capacity (binders.get ⟨i, h⟩) := by
  unfold calculatePlacements
  dsimp only
  have hinv : ∀ (segs : List Segment) (st : EngineState),
      CapInv binders st.nextSlot st.placements →
      CapInv binders (segs.foldl (processSegment cardMap binders) st).nextSlot
        (segs.foldl (processSegment cardMap binders) st).placements := by
    intro segs
    induction segs with
    | nil => intro st h0; exact h0
    | cons s rest ih =>
        intro st h0
        rw [List.foldl_cons]
        exact ih _ (processSegment_capInv cardMap binders st s h0)
  have hinit : CapInv binders initialEngineState.nextSlot initialEngineState.placements := by
    intro j hj
    constructor
    · simp [countIdx, initialEngineState]
    · simp [countIdx, initialEngineState]
  exact ((hinv segments initialEngineState hinit) i h).2

/-- Witness for the capacity bound at the concrete offset scenario. -/
theorem capacity_bound_witness :
    (0 : Nat) < ([scenarioBinder] : List Binder).length ∧
    countIdx (calculatePlacements cardMapAll [scenarioSegment] [scenarioBinder]).placements 0 ≤
      capacity (([scenarioBinder] : List Binder).get ⟨0, by decide⟩) :=
  ⟨by decide, capacity_bound cardMapAll [scenarioSegment] [scenarioBinder] 0 (by decide)⟩

/-- A placement built from the page and slot of pageSlotOf recovers its
linear slot. -/
theorem linIdx_mk (b : Binder) (card : ScryfallCard) (sid : String) (ci : Nat)
    (bid : String) (bi s : Nat) :
    linIdx b { card := card, segmentId := sid, cardIndexInSegment := ci, binderId := bid,
               binderIndex := bi, pageNumber := (pageSlotOf b s).1,
               slotOnPage := (pageSlotOf b s).2 } = s := by
  obtain ⟨bid2, kind⟩ := b
  cases kind with
  | box => simp [linIdx, pageSlotOf]
  | pageBinder pc spp =>
      simp only [linIdx, pageSlotOf, Nat.add_sub_cancel]
      rw [Nat.mul_comm]
      exact Nat.div_add_mod s spp

/-- Positions of a duplicate-free list holding equal entries are
equal. -/
theorem nodup_get?_inj (xs : List String) (i j : Nat) (h0 : i < xs.length)
    (h1 : xs.Nodup) (h2 : xs.get? i = xs.get? j) : i = j :=
  List.get?_inj h0 h1 h2

/-- A successful per-card iteration preserves the slot-distinctness
invariant when container ids are pairwise distinct. -/
theorem processCard_slotInv (cardMap : String → Option ScryfallCard) (binders : List Binder)
    (target? : Option (Binder × Nat)) (seg : Segment) (i0 : Nat) (c : String) (st : SegState)
    (hnodup : (binders.map (fun b => b.id)).Nodup)
    (htgt : ∀ tb ti, target? = some (tb, ti) → binders.get? ti = some tb)
    (h : SlotInv binders st.nextSlot st.placements) :
    SlotInv binders (processCard cardMap binders target? seg i0 c st).nextSlot
      (processCard cardMap binders target? seg i0 c st).placements := by
  cases hm : cardMap c with
  | none =>
      unfold processCard
      rw [hm]
      exact h
  | some card =>
      cases hc : chooseBinder binders st.nextSlot target? (getSpacer seg.spacersBefore i0) with
      | none =>
          unfold processCard
          rw [hm]
          dsimp only
          rw [hc]
          exact h
      | some bi =>
          obtain ⟨pb, pi⟩ := bi
          obtain ⟨hget, hroom⟩ :=
            chooseBinder_sound binders st.nextSlot target? _ pb pi htgt hc
          have hpi : pi < binders.length := by
            by_contra hge
            rw [List.get?_eq_none.mpr (by omega)] at hget
            exact Option.noConfusion hget
          rw [processCard_place_eq cardMap binders target? seg i0 c st card pb pi hm hc]
          intro j hj
          dsimp only
          obtain ⟨hpair, hbound⟩ := h j hj
          by_cases hid : (binders.get ⟨j, hj⟩).id = pb.id
          · have hj_pi : j = pi := by
              refine nodup_get?_inj (binders.map (fun b => b.id)) j pi
                (by simpa using hj) hnodup ?_
              rw [List.get?_map, List.get?_map, hget, List.get?_eq_get hj]
              simp only [Option.map_some', Option.some.injEq]
              exact hid
            subst hj_pi
            have hbj : binders.get ⟨j, hj⟩ = pb := by
              have := List.get?_eq_get hj
              rw [hget] at this
              exact (Option.some.inj this).symm
            rw [hbj] at hid hpair hbound ⊢
            constructor
            · rw [List.filter_append, List.map_append]
              rw [List.pairwise_append]
              refine ⟨hpair, ?_, ?_⟩
              · simp [List.pairwise_singleton, beq_self_eq_true]
              · intro x hx y hy
                simp only [List.filter_cons, List.filter_nil, beq_self_eq_true,
                  if_true] at hy
                simp only [List.map_cons, List.map_nil, List.mem_singleton] at hy
                rw [hy, linIdx_mk]
                obtain ⟨p0, hp0, hlin⟩ := List.mem_map.mp hx
                obtain ⟨hp0m, hp0id⟩ := List.mem_filter.mp hp0
                have := hbound p0 hp0m (by simpa using hp0id)
                omega
            · intro p hp hpid
              rcases List.mem_append.mp hp with hold | hnew
              · have := hbound p hold hpid
                unfold setSlot
                rw [if_pos rfl]
                omega
              · simp only [List.mem_singleton] at hnew
                rw [hnew, linIdx_mk]
                unfold setSlot
                rw [if_pos rfl]
                omega
          · have hfilter :
                (st.placements ++
                  ([{ card := card, segmentId := seg.id, cardIndexInSegment := i0,
                      binderId := pb.id, binderIndex := pi,
                      pageNumber :=
                        (pageSlotOf pb (st.nextSlot pb.id + getSpacer seg.spacersBefore i0)).1,
                      slotOnPage :=
                        (pageSlotOf pb
                          (st.nextSlot pb.id + getSpacer seg.spacersBefore i0)).2 }] :
                    List CardPlacement)).filter
                  (fun p => p.binderId == (binders.get ⟨j, hj⟩).id) =
                st.placements.filter (fun p => p.binderId == (binders.get ⟨j, hj⟩).id) := by
              rw [List.filter_append]
              have : (pb.id == (binders.get ⟨j, hj⟩).id) = false := by
                simp only [beq_eq_false_iff_ne, ne_eq]
                exact fun hEq => hid hEq.symm
              simp [this]
              exact fun hEq => hid hEq.symm
            constructor
            · rw [hfilter]
              exact hpair
            · intro p hp hpid
              have hns : setSlot st.nextSlot pb.id
                  (st.nextSlot pb.id + getSpacer seg.spacersBefore i0 + 1)
                  ((binders.get ⟨j, hj⟩).id) = st.nextSlot ((binders.get ⟨j, hj⟩).id) := by
                unfold setSlot
                rw [if_neg (fun hEq => hid hEq)]
              rw [hns]
              rcases List.mem_append.mp hp with hold | hnew
              · exact hbound p hold hpid
              · simp only [List.mem_singleton] at hnew
                rw [hnew] at hpid
                exact absurd hpid.symm hid

/-- The card loop preserves the slot-distinctness invariant. -/
theorem processCards_slotInv (cardMap : String → Option ScryfallCard) (binders : List Binder)
    (target? : Option (Binder × Nat)) (seg : Segment)
    (hnodup : (binders.map (fun b => b.id)).Nodup)
    (htgt : ∀ tb ti, target? = some (tb, ti) → binders.get? ti = some tb) :
    ∀ (cards : List String) (i0 : Nat) (st : SegState),
    SlotInv binders st.nextSlot st.placements →
    SlotInv binders (processCards cardMap binders target? seg i0 cards st).nextSlot
      (processCards cardMap binders target? seg i0 cards st).placements := by
  intro cards
  induction cards with
  | nil => intro i0 st h; exact h
  | cons c rest ih =>
      intro i0 st h
      unfold processCards
      exact ih (i0 + 1) _
        (processCard_slotInv cardMap binders target? seg i0 c st hnodup htgt h)

/-- Processing a segment preserves the slot-distinctness invariant. -/
theorem processSegment_slotInv (cardMap : String → Option ScryfallCard) (binders : List Binder)
    (st : EngineState) (seg : Segment)
    (hnodup : (binders.map (fun b => b.id)).Nodup)
    (h : SlotInv binders st.nextSlot st.placements) :
    SlotInv binders (processSegment cardMap binders st seg).nextSlot
      (processSegment cardMap binders st seg).placements := by
  unfold processSegment
  dsimp only
  have htgt : ∀ tb ti, resolveTarget binders seg = some (tb, ti) →
      binders.get? ti = some tb := fun tb ti hres =>
    resolveTarget_sound binders seg tb ti hres
  have hmono : ∀ id, st.nextSlot id ≤
      applyOffset binders seg (resolveTarget binders seg) st.nextSlot id :=
    applyOffset_mono binders seg (resolveTarget binders seg) st.nextSlot
  have h0 : SlotInv binders
      (applyOffset binders seg (resolveTarget binders seg) st.nextSlot) st.placements := by
    intro i hi
    refine ⟨(h i hi).1, fun p hp hpid => ?_⟩
    exact Nat.lt_of_lt_of_le ((h i hi).2 p hp hpid) (hmono _)
  exact processCards_slotInv cardMap binders (resolveTarget binders seg) seg hnodup htgt
    seg.cardIds 0
    { nextSlot := applyOffset binders seg (resolveTarget binders seg) st.nextSlot
      placements := st.placements, segOverflow := 0 } h0

/-- C10 (amended): when the containers carry pairwise distinct ids, the
linear slot indices of the placements of any single container are
strictly increasing in emission order, and in particular no two distinct
placements of one container share a page number and slot-on-page pair;
with a duplicated container id two containers of different geometry can
render distinct shared-counter slots as the same page and slot pair. -/
theorem slot_distinct (cardMap : String → Option ScryfallCard) (segments : List Segment)
    (binders : List Binder) (hnodup : (binders.map (fun b => b.id)).Nodup)
    (i : Nat) (h : i < binders.length) :
    (((calculatePlacements cardMap segments binders).placements.filter
        (fun p => p.binderId == (binders.get ⟨i, h⟩).id)).map
      (linIdx (binders.get ⟨i, h⟩))).Pairwise (· < ·) ∧
    ((calculatePlacements cardMap segments binders).placements.filter
        (fun p => p.binderId == (binders.get ⟨i, h⟩).id)).Pairwise
      (fun p q => p.pageNumber ≠ q.pageNumber ∨ p.slotOnPage ≠ q.slotOnPage) := by
  have hinv : ∀ (segs : List Segment) (st : EngineState),
      SlotInv binders st.nextSlot st.placements →
      SlotInv binders (segs.foldl (processSegment cardMap binders) st).nextSlot
        (segs.foldl (processSegment cardMap binders) st).placements := by
    intro segs
    induction segs with
    | nil => intro st h0; exact h0
    | cons s rest ih =>
        intro st h0
        rw [List.foldl_cons]
        exact ih _ (processSegment_slotInv cardMap binders st s hnodup h0)
  have hinit : SlotInv binders initialEngineState.nextSlot initialEngineState.placements := by
    intro j hj
    constructor
    · simp [initialEngineState]
    · intro p hp
      simp [initialEngineState] at hp
  have hfinal := hinv segments initialEngineState hinit i h
  have hpair : (((calculatePlacements cardMap segments binders).placements.filter
      (fun p => p.binderId == (binders.get ⟨i, h⟩).id)).map
      (linIdx (binders.get ⟨i, h⟩))).Pairwise (· < ·) := by
    unfold calculatePlacements
    dsimp only
    exact hfinal.1
  refine ⟨hpair, ?_⟩
  have hlt := (List.pairwise_map).mp hpair
  refine hlt.imp ?_
  intro p q hpq
  by_contra hcon
  push_neg at hcon
  obtain ⟨hpage, hslot⟩ := hcon
  have : linIdx (binders.get ⟨i, h⟩) p = linIdx (binders.get ⟨i, h⟩) q := by
    unfold linIdx
    cases hk : (binders.get ⟨i, h⟩).kind with
    | box => rw [hslot]
    | pageBinder pc spp => rw [hslot, hpage]
  omega

/-- Witness for slot distinctness at the concrete offset scenario. -/
theorem slot_distinct_witness :
    (([scenarioBinder] : List Binder).map (fun b => b.id)).Nodup ∧
    (((calculatePlacements cardMapAll [scenarioSegment] [scenarioBinder]).placements.filter
        (fun p => p.binderId == (([scenarioBinder] : List Binder).get ⟨0, by decide⟩).id)).map
      (linIdx (([scenarioBinder] : List Binder).get ⟨0, by decide⟩))).Pairwise (· < ·) :=
  ⟨by decide,
    (slot_distinct cardMapAll [scenarioSegment] [scenarioBinder] (by decide) 0 (by decide)).1⟩

/-- C10 counterexample: with two containers sharing the id X but with 9
and 12 slots per page, the 16th placement (slot 15 of the first
geometry) and the 19th placement (slot 18 of the second geometry) both
render as page 2 slot 7 under the same binderId, so two distinct
placements of one container id share a physical page and slot pair. -/
theorem slot_distinct_cex :
    ((calculatePlacements cardMapAll [dupSegment] [dupBinderA, dupBinderB]).placements.map
      (fun p => (p.binderId, p.pageNumber, p.slotOnPage))).get? 15 = some ("X", 2, 7) ∧
    ((calculatePlacements cardMapAll [dupSegment] [dupBinderA, dupBinderB]).placements.map
      (fun p => (p.binderId, p.pageNumber, p.slotOnPage))).get? 18 = some ("X", 2, 7) ∧
    ((calculatePlacements cardMapAll [dupSegment] [dupBinderA, dupBinderB]).placements.map
      (fun p => p.cardIndexInSegment)).get? 15 ≠
    ((calculatePlacements cardMapAll [dupSegment] [dupBinderA, dupBinderB]).placements.map
      (fun p => p.cardIndexInSegment)).get? 18 := by
  set_option maxRecDepth 8000 in decide

/-- C7 (amended): when an after placement exists and belongs to the same
segment as the before placement, or there is no before placement, the
handler schedules an insertion before the after card id, and the new
card lands immediately before the first occurrence of that card id in
the owning segment card sequence (the after placement position whenever
its card id occurs nowhere earlier); otherwise the new card is appended
to the end of the owning segment card sequence. -/
theorem insertAtSlot_decision (placements : List CardPlacement) (binderId : String)
    (spp pg sl : Nat) (seg : Segment) (newId : String) :
    (∀ a, findPlacementAfter placements binderId spp (targetSlotIndexOf spp pg sl) = some a →
      (findPlacementBefore placements binderId spp (targetSlotIndexOf spp pg sl) = none ∨
       (∃ b, findPlacementBefore placements binderId spp (targetSlotIndexOf spp pg sl) = some b ∧
          b.1.segmentId = a.1.segmentId)) →
      handleInsertCard placements binderId spp pg sl =
        some { segmentId := a.1.segmentId, insertBeforeCardId := some a.1.card.id } ∧
      ∀ p, seg.cardIds.findIdx? (fun x => x == a.1.card.id) = some p →
        (insertCardInSegment seg newId (some a.1.card.id)).cardIds =
          seg.cardIds.take p ++ newId :: seg.cardIds.drop p) ∧
    (∀ b, findPlacementBefore placements binderId spp (targetSlotIndexOf spp pg sl) = some b →
      (∀ a, findPlacementAfter placements binderId spp (targetSlotIndexOf spp pg sl) = some a →
        a.1.segmentId ≠ b.1.segmentId) →
      handleInsertCard placements binderId spp pg sl =
        some { segmentId := b.1.segmentId, insertBeforeCardId := none } ∧
      (insertCardInSegment seg newId none).cardIds = seg.cardIds ++ [newId]) := by
  constructor
  · intro a ha hsame
    constructor
    · unfold handleInsertCard
      cases hb : findPlacementBefore placements binderId spp
          (targetSlotIndexOf spp pg sl) with
      | none =>
          dsimp only
          rw [ha]
      | some b =>
          rcases hsame with hnone | ⟨b2, hb2, heq⟩
          · rw [hb] at hnone
            exact Option.noConfusion hnone
          · rw [hb] at hb2
            have hbb := Option.some.inj hb2
            subst hbb
            dsimp only
            rw [ha]
            dsimp only
            rw [if_pos (by exact beq_iff_eq.mpr heq.symm)]
            rw [heq]
    · intro p hfind
      unfold insertCardInSegment
      dsimp only
      rw [hfind]
  · intro b hb hdiff
    constructor
    · unfold handleInsertCard
      rw [hb]
      dsimp only
      cases ha : findPlacementAfter placements binderId spp
          (targetSlotIndexOf spp pg sl) with
      | none => rfl
      | some a =>
          dsimp only
          rw [if_neg (by simp [hdiff a ha])]
    · unfold insertCardInSegment
      rfl

/-- Witness for the insert-at-slot decision at the concrete spacer-gap
scenario: the gap at page 1 slot 3 has a before placement of segment s
and an after placement of the same segment carrying card id A, so the
handler schedules an insertion before card id A and the card lands at
the first occurrence of A. -/
theorem insertAtSlot_decision_witness :
    handleInsertCard
      (calculatePlacements cardMapAll [sevenSegment] [sevenBinder]).placements "X" 9 1 3 =
      some { segmentId := "s", insertBeforeCardId := some "A" } ∧
    (insertCardInSegment sevenSegment "N" (some "A")).cardIds = ["N", "A", "B", "A"] := by
  have ha : findPlacementAfter
      (calculatePlacements cardMapAll [sevenSegment] [sevenBinder]).placements "X" 9
      (targetSlotIndexOf 9 1 3) =
      some ({ card := { id := "A" }, segmentId := "s", cardIndexInSegment := 2,
              binderId := "X", binderIndex := 0, pageNumber := 1, slotOnPage := 4 }, 3) := by
    decide
  have hb : findPlacementBefore
      (calculatePlacements cardMapAll [sevenSegment] [sevenBinder]).placements "X" 9
      (targetSlotIndexOf 9 1 3) =
      some ({ card := { id := "B" }, segmentId := "s", cardIndexInSegment := 1,
              binderId := "X", binderIndex := 0, pageNumber := 1, slotOnPage := 2 }, 1) := by
    decide
  have h := (insertAtSlot_decision
      (calculatePlacements cardMapAll [sevenSegment] [sevenBinder]).placements "X" 9 1 3
      sevenSegment "N").1 _ ha (Or.inr ⟨_, hb, by decide⟩)
  refine ⟨h.1, ?_⟩
  have h2 := h.2 0 (by decide)
  simpa using h2

/-- C7 counterexample: in the spacer-gap scenario the before and after
placements share segment s and the after placement sits at position 2,
but the card id A of the after placement also occurs at position 0, so
the new card is inserted at position 0 and not immediately before the
after placement position. -/
theorem insertAtSlot_position_cex :
    findPlacementBefore
      (calculatePlacements cardMapAll [sevenSegment] [sevenBinder]).placements "X" 9 2 =
      some ({ card := { id := "B" }, segmentId := "s", cardIndexInSegment := 1,
              binderId := "X", binderIndex := 0, pageNumber := 1, slotOnPage := 2 }, 1) ∧
    findPlacementAfter
      (calculatePlacements cardMapAll [sevenSegment] [sevenBinder]).placements "X" 9 2 =
      some ({ card := { id := "A" }, segmentId := "s", cardIndexInSegment := 2,
              binderId := "X", binderIndex := 0, pageNumber := 1, slotOnPage := 4 }, 3) ∧
    handleInsertCard
      (calculatePlacements cardMapAll [sevenSegment] [sevenBinder]).placements "X" 9 1 3 =
      some { segmentId := "s", insertBeforeCardId := some "A" } ∧
    (insertCardInSegment sevenSegment "N" (some "A")).cardIds ≠
      sevenSegment.cardIds.take 2 ++ "N" :: sevenSegment.cardIds.drop 2 := by
  exact ⟨by decide, by decide, by decide, by decide⟩

/-- Every digit character produced by the decimal printer is a digit. -/
theorem digitChar_isDigit (d : Nat) : (digitChar d).isDigit = true := by
  unfold digitChar
  split <;> decide

/-- Character code of a printed decimal digit. -/
theorem digitChar_toNat (d : Nat) (h : d < 10) : (digitChar d).toNat = 48 + d := by
  interval_cases d <;> decide

/-- All characters of the fuelled decimal printer are digits. -/
theorem natCharsAux_digits (fuel : Nat) :
    ∀ n c, c ∈ natCharsAux fuel n → c.isDigit = true := by
  induction fuel with
  | zero =>
      intro n c h
      simp [natCharsAux] at h
  | succ f ih =>
      intro n c h
      unfold natCharsAux at h
      by_cases hn : n < 10
      · rw [if_pos hn] at h
        simp at h
        rw [h]
        exact digitChar_isDigit n
      · rw [if_neg hn] at h
        rcases List.mem_append.mp h with h1 | h2
        · exact ih _ c h1
        · simp at h2
          rw [h2]
          exact digitChar_isDigit _

/-- The fuelled decimal printer emits at least one character when the
fuel covers the number. -/
theorem natCharsAux_ne_nil (fuel n : Nat) (h : n < fuel) : natCharsAux fuel n ≠ [] := by
  cases fuel with
  | zero => omega
  | succ f =>
      unfold natCharsAux
      by_cases hn : n < 10
      · rw [if_pos hn]
        simp
      · rw [if_neg hn]
        simp

/-- Folding the decimal digits of a number onto an accumulator recovers
the number. -/
theorem natCharsAux_foldl (fuel : Nat) :
    ∀ n acc, n < fuel →
    (natCharsAux fuel n).foldl (fun a c => 10 * a + (c.toNat - 48)) acc =
      acc * 10 ^ (natCharsAux fuel n).length + n := by
  induction fuel with
  | zero =>
      intro n acc h
      omega
  | succ f ih =>
      intro n acc h
      unfold natCharsAux
      by_cases hn : n < 10
      · rw [if_pos hn]
        simp only [List.foldl_cons, List.foldl_nil, List.length_cons, List.length_nil,
          pow_one, Nat.zero_add, Nat.pow_succ, Nat.pow_zero, Nat.one_mul]
        rw [digitChar_toNat n hn]
        omega
      · rw [if_neg hn]
        have hlt : n / 10 < n := Nat.div_lt_self (by omega) (by omega)
        have hrec : n / 10 < f := by omega
        rw [List.foldl_append]
        rw [ih (n / 10) acc hrec]
        simp only [List.foldl_cons, List.foldl_nil, List.length_append, List.length_cons,
          List.length_nil]
        rw [digitChar_toNat (n % 10) (Nat.mod_lt _ (by omega))]
        have hmod : 10 * (n / 10) + n % 10 = n := Nat.div_add_mod n 10
        rw [Nat.add_zero, Nat.pow_succ, ← Nat.mul_assoc]
        generalize acc * 10 ^ (natCharsAux f (n / 10)).length = y
        omega

/-- A list all of whose elements satisfy the predicate is its own
longest matching prefix. -/
theorem takeWhile_all (p : Char → Bool) :
    ∀ (l : JStr), (∀ c ∈ l, p c = true) → l.takeWhile p = l := by
  intro l
  induction l with
  | nil => intro _; rfl
  | cons c cs ih =>
      intro h
      have hc : p c = true := h c (List.mem_cons_self c cs)
      simp [List.takeWhile_cons, hc, ih (fun x hx => h x (List.mem_cons_of_mem c hx))]

/-- Parsing the decimal print of a number recovers the number. -/
theorem parseNat_natChars (n : Nat) : parseNat (natChars n) = some n := by
  unfold parseNat natChars
  have htake : (natCharsAux (n + 1) n).takeWhile (fun c => c.isDigit) =
      natCharsAux (n + 1) n :=
    takeWhile_all _ _ (fun c hc => natCharsAux_digits (n + 1) n c hc)
  rw [htake]
  have hne := natCharsAux_ne_nil (n + 1) n (by omega)
  rw [if_neg (by simpa [List.isEmpty_iff] using hne)]
  congr 1
  unfold digitsToNat
  have := natCharsAux_foldl (n + 1) n 0 (by omega)
  simpa using this

/-- The decimal printer is injective. -/
theorem natChars_inj (a b : Nat) (h : natChars a = natChars b) : a = b := by
  have ha := parseNat_natChars a
  rw [h, parseNat_natChars b] at ha
  exact (Option.some.inj ha).symm

/-- A string starts with any of its prefixes. -/
theorem startsWithJ_append (pre rest : JStr) : startsWithJ (pre ++ rest) pre = true := by
  induction pre with
  | nil =>
      cases rest with
      | nil => rfl
      | cons c cs => rfl
  | cons c cs ih => simp [startsWithJ, ih]

/-- A string is its prefix followed by the rest beyond the prefix
length. -/
theorem startsWithJ_drop (key pre : JStr) (h : startsWithJ key pre = true) :
    key = pre ++ key.drop pre.length := by
  induction pre generalizing key with
  | nil => simp
  | cons p ps ih =>
      cases key with
      | nil => simp [startsWithJ] at h
      | cons c cs =>
          simp only [startsWithJ, Bool.and_eq_true, beq_iff_eq] at h
          obtain ⟨h1, h2⟩ := h
          simp only [List.length_cons, List.drop_succ_cons, List.cons_append]
          rw [← h1, ← ih cs h2]

/-- Two colon-free prefixes closed by a colon that match the same string
agree. -/
theorem startsWith_colon_eq :
    ∀ (a b r : JStr), ':' ∉ a → ':' ∉ b →
    startsWithJ (b ++ ':' :: r) (a ++ [':']) = true → a = b := by
  intro a
  induction a with
  | nil =>
      intro b r _ hb h
      cases b with
      | nil => rfl
      | cons y ys =>
          simp only [List.nil_append, List.cons_append, startsWithJ, Bool.and_eq_true,
            beq_iff_eq] at h
          rw [h.1] at hb
          exact absurd (List.mem_cons_self _ _) hb
  | cons x xs ih =>
      intro b r ha hb h
      cases b with
      | nil =>
          simp only [List.nil_append, List.cons_append, startsWithJ, Bool.and_eq_true,
            beq_iff_eq] at h
          rw [← h.1] at ha
          exact absurd (List.mem_cons_self _ _) ha
      | cons y ys =>
          simp only [List.cons_append, startsWithJ, Bool.and_eq_true, beq_iff_eq] at h
          obtain ⟨h1, h2⟩ := h
          have hxs : ':' ∉ xs := fun hmem => ha (List.mem_cons_of_mem x hmem)
          have hys : ':' ∉ ys := fun hmem => hb (List.mem_cons_of_mem y hmem)
          rw [h1, ih ys r hxs hys h2]

/-- An ownership key splits as its segment prefix, the colon, and its
printed position. -/
theorem mkKey_split (sid : JStr) (pos : Nat) :
    mkKey sid pos = (sid ++ [':']) ++ natChars pos := by
  simp [mkKey]

/-- The per-key shift on a well-formed ownership key: a key of the
shifted segment with position at or above the insert index moves up by
one, every other well-formed key is untouched. -/
theorem shiftKeyForInsert_mkKey (sid : JStr) (q : Nat) (hsid : colonFree sid)
    (sid2 : JStr) (pos : Nat) (hsid2 : colonFree sid2) :
    shiftKeyForInsert sid q (mkKey sid2 pos) =
      if sid2 = sid ∧ q ≤ pos then mkKey sid (pos + 1) else mkKey sid2 pos := by
  unfold shiftKeyForInsert
  by_cases heq : sid2 = sid
  · subst heq
    have hpre : startsWithJ (mkKey sid2 pos) (sid2 ++ [':']) = true := by
      rw [mkKey_split]
      exact startsWithJ_append _ _
    rw [if_pos hpre]
    have hdrop : (mkKey sid2 pos).drop (sid2 ++ [':']).length = natChars pos := by
      rw [mkKey_split, List.drop_left]
    rw [hdrop, parseNat_natChars]
    dsimp only
    by_cases hq : q ≤ pos
    · simp [hq]
    · simp [hq]
  · have hpre : ¬ startsWithJ (mkKey sid2 pos) (sid ++ [':']) = true := by
      intro htrue
      have : sid = sid2 := startsWith_colon_eq sid sid2 (natChars pos) hsid hsid2
        (by simpa [mkKey] using htrue)
      exact heq this.symm
    rw [if_neg hpre]
    rw [if_neg (by tauto)]

/-- The shifted key sets keep exactly the well-formed keys whose position
lies strictly below the insert index, whatever else the set contains. -/
theorem mem_map_shiftKey (sid : JStr) (q pos : Nat) (hpos : pos < q) (S : List JStr) :
    mkKey sid pos ∈ S.map (shiftKeyForInsert sid q) ↔ mkKey sid pos ∈ S := by
  have hK : shiftKeyForInsert sid q (mkKey sid pos) = mkKey sid pos := by
    unfold shiftKeyForInsert
    have hpre : startsWithJ (mkKey sid pos) (sid ++ [':']) = true := by
      rw [mkKey_split]
      exact startsWithJ_append _ _
    rw [if_pos hpre]
    have hdrop : (mkKey sid pos).drop (sid ++ [':']).length = natChars pos := by
      rw [mkKey_split, List.drop_left]
    rw [hdrop, parseNat_natChars]
    dsimp only
    rw [if_neg (by omega)]
  constructor
  · intro h
    obtain ⟨x, hx, hfx⟩ := List.mem_map.mp h
    have hxK : x = mkKey sid pos := by
      unfold shiftKeyForInsert at hfx
      by_cases hsw : startsWithJ x (sid ++ [':']) = true
      · rw [if_pos hsw] at hfx
        cases hparse : parseNat (x.drop (sid ++ [':']).length) with
        | none =>
            rw [hparse] at hfx
            exact hfx
        | some idx =>
            rw [hparse] at hfx
            dsimp only at hfx
            by_cases hq : q ≤ idx
            · rw [if_pos hq] at hfx
              rw [mkKey_split, mkKey_split] at hfx
              have hnc : natChars (idx + 1) = natChars pos :=
                List.append_cancel_left hfx
              have := natChars_inj _ _ hnc
              omega
            · rw [if_neg hq] at hfx
              exact hfx
      · rw [if_neg hsw] at hfx
        exact hfx
    rw [hxK] at hx
    exact hx
  · intro h
    exact List.mem_map.mpr ⟨mkKey sid pos, h, hK⟩

/-- C9: shiftForInsert re-keys exactly the owned and skipped keys of the
given segment whose position is at least the insert position, moving
each to position plus one, and leaves every other well-formed key
untouched; consequently toggling owned or skipped on a key and then
inserting a card at a strictly greater position leaves that key
membership unchanged after the re-key. -/
theorem shiftForInsert_spec (sid : JStr) (q : Nat) (hsid : colonFree sid) :
    (∀ (sid2 : JStr) (pos : Nat), colonFree sid2 →
      shiftKeyForInsert sid q (mkKey sid2 pos) =
        if sid2 = sid ∧ q ≤ pos then mkKey sid (pos + 1) else mkKey sid2 pos) ∧
    (∀ (owned skipped : List JStr) (pos : Nat), pos < q →
      ((mkKey sid pos ∈
          (shiftIndicesForInsert (toggleKey owned (mkKey sid pos)) skipped sid q).1) ↔
        mkKey sid pos ∈ toggleKey owned (mkKey sid pos)) ∧
      ((mkKey sid pos ∈
          (shiftIndicesForInsert owned (toggleKey skipped (mkKey sid pos)) sid q).2) ↔
        mkKey sid pos ∈ toggleKey skipped (mkKey sid pos))) := by
  constructor
  · intro sid2 pos h2
    exact shiftKeyForInsert_mkKey sid q hsid sid2 pos h2
  · intro owned skipped pos hlt
    constructor
    · exact mem_map_shiftKey sid q pos hlt (toggleKey owned (mkKey sid pos))
    · exact mem_map_shiftKey sid q pos hlt (toggleKey skipped (mkKey sid pos))

/-- Witness for the ownership re-keying at concrete keys: shifting
segment a at insert index 2 moves the key at position 3 up to position
4, and membership of a toggled key at position 1 survives the shift. -/
theorem shiftForInsert_spec_witness :
    colonFree (['a'] : JStr) ∧
    shiftKeyForInsert ['a'] 2 (mkKey ['a'] 3) = mkKey ['a'] 4 ∧
    ((mkKey ['a'] 1 ∈
        (shiftIndicesForInsert (toggleKey [] (mkKey ['a'] 1)) [] ['a'] 2).1) ↔
      mkKey ['a'] 1 ∈ toggleKey [] (mkKey ['a'] 1)) := by
  have h := shiftForInsert_spec ['a'] 2 (by decide)
  refine ⟨by decide, ?_, (h.2 [] [] 1 (by decide)).1⟩
  rw [h.1 ['a'] 3 (by decide)]
  decide

end Spellbinder
